import Mathlib

/-!
Vegeta latency histogram and report loop.

A shallow embedding of `lib/histogram.go` and of `report.go`, followed by
the properties proved about them.

Modelling conventions.

* `time.Duration` is Go's `int64`.  A duration is an `Int`, and the only
  arithmetic the histogram performs on durations (the multiplication in
  `makeBucket`) is wrapped to 64-bit two's complement by `wrapInt64`.
* `uint64` counters (`Counts`, `Total`) are `Nat`; a counter would need
  `2^64` calls of `Add` to wrap.
* A Go loop that may run forever (`makeBucket`) takes a fuel argument and
  reports `Fault.outOfFuel` when the fuel is used up; a run-time panic
  (index or slice out of range) is `Fault.outOfRange`.
* Functions of the Go standard library that the code calls
  (`time.ParseDuration`, `strings.TrimSpace`, `time.Duration.String`) are
  parameters of the definitions that use them.
* A byte string is a list of `Char`, one `Char` per byte.
-/

namespace Vegeta

/-- Ways in which a Go call fails to return a value in the embedding. -/
inductive Fault where
  | outOfRange
  | outOfFuel
deriving DecidableEq, Repr

deriving instance DecidableEq for Except

/-- Number of values of a 64-bit machine word. -/
def word64 : Int := 18446744073709551616

/-- Largest `int64` plus one. -/
def int64Bound : Int := 9223372036854775808

/-- Two's-complement wrap of an integer into the `int64` range. -/
def wrapInt64 (z : Int) : Int := (z + int64Bound) % word64 - int64Bound

/-- The product `time.Duration(h.Exponent) * d` of `makeBucket`: the
conversion `uint -> int64` and the `int64` multiplication both wrap. -/
def mulDuration (e : Nat) (d : Int) : Int := wrapInt64 (wrapInt64 (e : Int) * d)

/-- One millisecond, in nanoseconds. -/
def ms : Int := 1000000

/-- The Go struct `Histogram`. -/
structure Histogram where
  Buckets : List Int
  Counts : List Nat
  Total : Nat
  Exponent : Nat
deriving DecidableEq, Repr

/-- The loop of `makeBucket`, entered with loop variable `i`: append
`Exponent * Buckets[i-1]`, return `i-1` when the latency lies in
`[Buckets[i-1], Buckets[i])`, otherwise go on with `i+1`. -/
def makeBucketLoop : Nat → Nat → Histogram → Int → Except Fault (Nat × Histogram)
  | 0, _, _, _ => .error .outOfFuel
  | fuel + 1, i, h, lat =>
    if i = 0 then .error .outOfRange
    else
      match h.Buckets[i - 1]? with
      | none => .error .outOfRange
      | some prev =>
        let h1 : Histogram := { h with Buckets := h.Buckets ++ [mulDuration h.Exponent prev] }
        match h1.Buckets[i - 1]?, h1.Buckets[i]? with
        | some lo, some hi =>
          if lat ≥ lo ∧ lat < hi then .ok (i - 1, h1)
          else makeBucketLoop fuel (i + 1) h1 lat
        | _, _ => .error .outOfRange

/-- Go `Histogram.makeBucket`: the loop starts at `i = len(h.Buckets)`. -/
def makeBucket (fuel : Nat) (h : Histogram) (lat : Int) : Except Fault (Nat × Histogram) :=
  makeBucketLoop fuel h.Buckets.length h lat

/-- The search loop of `getBucket` with `n` iterations left and loop
variable `i`: `some i` when the loop returns at `i`, `none` when the loop
condition fails first.  Both indices read are below `len(h.Buckets)`
whenever `i + n + 1 = len(h.Buckets)`. -/
def getBucketScan (bs : List Int) (lat : Int) : Nat → Nat → Option Nat
  | 0, _ => none
  | n + 1, i =>
    if lat ≥ bs.getD i 0 ∧ lat < bs.getD (i + 1) 0 then some i
    else getBucketScan bs lat n (i + 1)

/-- Go `Histogram.getBucket`.  When the search loop ends without a match
the loop variable is `len(h.Buckets) - 1` (and `0` for an empty list). -/
def getBucket (fuel : Nat) (h : Histogram) (lat : Int) : Except Fault (Nat × Histogram) :=
  match getBucketScan h.Buckets lat (h.Buckets.length - 1) 0 with
  | some i => .ok (i, h)
  | none =>
    if h.Exponent > 0 then makeBucket fuel h lat
    else .ok (h.Buckets.length - 1, h)

/-- The extension of `Counts` with zeros up to the length of `Buckets`
that `Add` performs. -/
def extendCounts (h : Histogram) : Histogram :=
  if h.Counts.length < h.Buckets.length then
    { h with Counts := h.Counts ++ List.replicate (h.Buckets.length - h.Counts.length) 0 }
  else h

/-- Go `Histogram.Add`. -/
def Add (fuel : Nat) (h : Histogram) (lat : Int) : Except Fault Histogram :=
  match getBucket fuel h lat with
  | .error e => .error e
  | .ok (i, h1) =>
    let h2 := extendCounts h1
    let h3 : Histogram := { h2 with Total := h2.Total + 1 }
    if i < h3.Counts.length then
      .ok { h3 with Counts := h3.Counts.set i (h3.Counts.getD i 0 + 1) }
    else .error .outOfRange

/-- Feeding a sequence of samples to `Add`, one after the other. -/
def addAll (fuel : Nat) : Histogram → List Int → Except Fault Histogram
  | h, [] => .ok h
  | h, lat :: rest =>
    match Add fuel h lat with
    | .error e => .error e
    | .ok h1 => addAll fuel h1 rest

/-- First loop of `Close` with `n` iterations left: the first index at or
after `a` whose count is positive, or the index reached when the loop
condition fails. -/
def closeFirst (cs : List Nat) : Nat → Nat → Nat
  | 0, a => a
  | n + 1, a => if cs.getD a 0 > 0 then a else closeFirst cs n (a + 1)

/-- Second loop of `Close` with `n` iterations left: `b` walks down while
`b > a` and `Counts[b]` is zero.  `b` is a Go `int` and is `-1` for an
empty `Counts`. -/
def closeLast (cs : List Nat) (a : Nat) : Nat → Int → Int
  | 0, b => b
  | n + 1, b =>
    if b > (a : Int) then
      if cs.getD b.toNat 0 > 0 then b else closeLast cs a n (b - 1)
    else b

/-- Go slice expression `s[lo:hi]`: it panics unless
`0 <= lo <= hi <= cap(s)`.  Capacity is not modelled: the bound used is
`len(s)`, so a `hi` between the length and the capacity, which Go accepts,
is a fault here. -/
def slice {α : Type} (s : List α) (lo hi : Int) : Except Fault (List α) :=
  if 0 ≤ lo ∧ lo ≤ hi ∧ hi ≤ (s.length : Int) then
    .ok ((s.take hi.toNat).drop lo.toNat)
  else .error .outOfRange

/-- Go `Histogram.Close`. -/
def Close (h : Histogram) : Except Fault Histogram :=
  if h.Exponent = 0 then .ok h
  else
    let a := closeFirst h.Counts h.Counts.length 0
    let b := closeLast h.Counts a h.Counts.length ((h.Counts.length : Int) - 1)
    match slice h.Counts a (b + 1) with
    | .error e => .error e
    | .ok cs =>
      match slice h.Buckets a (b + 1) with
      | .error e => .error e
      | .ok bs => .ok { h with Counts := cs, Buckets := bs }

/-- The sample fits bucket `i`: `i` is not the last index and
`Buckets[i] <= lat < Buckets[i+1]`. -/
def fits (bs : List Int) (lat : Int) (i : Nat) : Prop :=
  i + 1 < bs.length ∧ bs.getD i 0 ≤ lat ∧ lat < bs.getD (i + 1) 0

instance (bs : List Int) (lat : Int) (i : Nat) : Decidable (fits bs lat i) := by
  unfold fits
  infer_instance

/-- `Counts` padded with zeros to length `n` (unchanged when it is already
that long). -/
def padCounts (cs : List Nat) (n : Nat) : List Nat :=
  cs ++ List.replicate (n - cs.length) 0

/-- The index `getBucket` returns when growth is disabled: the index at
which the search loop returns, or the last index. -/
def bucketOf (bs : List Int) (lat : Int) : Nat :=
  match getBucketScan bs lat (bs.length - 1) 0 with
  | some i => i
  | none => bs.length - 1

/-! ## The decode loop of `report` -/

/-- A Go `error` value. -/
abbrev Err := String

/-- What one call of `dec.Decode(&r)` yields: a result (of which only the
latency matters here), `io.EOF`, or another error. -/
inductive Decoded where
  | result (lat : Int)
  | eof
  | failure (e : Err)
deriving DecidableEq, Repr

/-- What the loop did to the report and the output, in order. -/
inductive Action (σ : Type) where
  | cleared
  | closed
  | reported (snapshot : σ)
  | added (lat : Int)
deriving DecidableEq, Repr

/-- Modelled from the spec: the interfaces `vegeta.Report`, `vegeta.Closer`
and `vegeta.Reporter` and the reporter closures (`lib/reporters.go`), which
are not part of the sources.  A value is the pair `(report, rc)` of `report`:
the `Add` method of the report and `rc`, which is `nil` (`none`) unless the
report has a `Close` method.  `Report` renders the current state and does
not change it, so a written report is recorded as the state it was computed
from. -/
structure Reporter (σ : Type) where
  add : σ → Int → Except Fault σ
  closer : Option (σ → Except Fault σ)

/-- The histogram report `&hist` of the `"hist"` case: `*Histogram` has the
method `Close()`, so the type assertion to `vegeta.Closer` succeeds. -/
def histReporter (fuel : Nat) : Reporter Histogram :=
  { add := Add fuel, closer := some Close }

/-- What the environment offers at one evaluation of the `select`
statement: whether `sigch` and `ticks` have a value ready, which of them
`select` picks when both are ready (Go picks one of the ready cases at
random), and the errors, if any, that `clear` and `Report` would return. -/
structure Event where
  sig : Bool
  tick : Bool
  pickSig : Bool
  clearErr : Option Err
  reportErr : Option Err
deriving DecidableEq, Repr

/-- The three cases of the `select` statement. -/
inductive Case where
  | sig
  | tick
  | default
deriving DecidableEq, Repr

/-- Go's `select`: a ready communication is chosen, at random among the
ready ones; `default` runs only when none is ready.  `ticks` is a nil
channel, never ready, unless `every > 0`. -/
def selectCase (every : Int) (ev : Event) : Case :=
  let tickReady := decide (every > 0) && ev.tick
  if ev.sig && tickReady then (if ev.pickSig then .sig else .tick)
  else if ev.sig then .sig
  else if tickReady then .tick
  else .default

/-- The state of the loop: the report, the number of results decoded so
far, and the log of actions performed. -/
structure LoopState (σ : Type) where
  agg : σ
  decoded : Nat
  log : List (Action σ)
deriving DecidableEq, Repr

/-- Go `writeReport`: call `rc.Close()` when `rc` is not nil, then
`r.Report(out)`, whose error is returned. -/
def writeReport {σ : Type} (R : Reporter σ) (s : LoopState σ) (reportErr : Option Err) :
    Except Fault (LoopState σ × Option Err) :=
  match R.closer with
  | none => .ok ({ s with log := s.log ++ [.reported s.agg] }, reportErr)
  | some close =>
    match close s.agg with
    | .error f => .error f
    | .ok a => .ok ({ s with agg := a, log := s.log ++ [.closed, .reported a] }, reportErr)

/-- How one iteration of the loop ends: the loop goes on, the loop is left
(`break decode`), the function returns an error, or the run faults. -/
inductive Step (σ : Type) where
  | next (s : LoopState σ)
  | leave (s : LoopState σ)
  | ret (e : Err) (s : LoopState σ)
  | fault (f : Fault)
deriving DecidableEq, Repr

/-- The `case <-ticks` branch: `clear(out)`, then `writeReport`. -/
def tickBranch {σ : Type} (R : Reporter σ) (s : LoopState σ) (ev : Event) : Step σ :=
  match ev.clearErr with
  | some e => .ret e s
  | none =>
    match writeReport R { s with log := s.log ++ [.cleared] } ev.reportErr with
    | .error f => .fault f
    | .ok (s1, some e) => .ret e s1
    | .ok (s1, none) => .next s1

/-- The `default` branch: decode one result and add it to the report.
`dec n` is what the `n+1`-th call of `Decode` yields. -/
def defaultBranch {σ : Type} (R : Reporter σ) (dec : Nat → Decoded) (s : LoopState σ) : Step σ :=
  match dec s.decoded with
  | .eof => .leave s
  | .failure e => .ret e s
  | .result lat =>
    match R.add s.agg lat with
    | .error f => .fault f
    | .ok a => .next { agg := a, decoded := s.decoded + 1, log := s.log ++ [.added lat] }

/-- One iteration of the loop `decode:` of `report`. -/
def loopStep {σ : Type} (R : Reporter σ) (every : Int) (dec : Nat → Decoded)
    (s : LoopState σ) (ev : Event) : Step σ :=
  match selectCase every ev with
  | .sig => .leave s
  | .tick => tickBranch R s ev
  | .default => defaultBranch R dec s

/-- How a run of the loop and the final `writeReport` ends: `report`
returns (`err` is `none` for a nil error), or the run faults. -/
inductive Outcome (σ : Type) where
  | returned (err : Option Err) (s : LoopState σ)
  | fault (f : Fault)
deriving DecidableEq, Repr

/-- The loop of `report` run against a schedule of events, one per
iteration, followed by the final `writeReport` once the loop is left;
`finalErr` is the error, if any, of the final `Report`.  A schedule that ends
before the loop is left is reported as `Fault.outOfFuel`. -/
def runLoop {σ : Type} (R : Reporter σ) (every : Int) (dec : Nat → Decoded)
    (finalErr : Option Err) : LoopState σ → List Event → Outcome σ
  | _, [] => .fault .outOfFuel
  | s, ev :: evs =>
    match loopStep R every dec s ev with
    | .next s1 => runLoop R every dec finalErr s1 evs
    | .leave s1 =>
      match writeReport R s1 finalErr with
      | .error f => .fault f
      | .ok (s2, err) => .returned err s2
    | .ret e s1 => .returned (some e) s1
    | .fault f => .fault f

/-- The iterations of the loop over a schedule during which the loop goes
on: the state reached, or `none` when some iteration leaves the loop,
returns or faults. -/
def loopPrefix {σ : Type} (R : Reporter σ) (every : Int) (dec : Nat → Decoded) :
    LoopState σ → List Event → Option (LoopState σ)
  | s, [] => some s
  | s, ev :: evs =>
    match loopStep R every dec s ev with
    | .next s1 => loopPrefix R every dec s1 evs
    | _ => none

/-- The latencies of the `Add` calls recorded in a log, in order. -/
def addedLats {σ : Type} : List (Action σ) → List Int
  | [] => []
  | .added lat :: rest => lat :: addedLats rest
  | .cleared :: rest => addedLats rest
  | .closed :: rest => addedLats rest
  | .reported _ :: rest => addedLats rest

/-- The report state after `Add` of each latency of a list in turn. -/
def addMany {σ : Type} (R : Reporter σ) : σ → List Int → Except Fault σ
  | a, [] => .ok a
  | a, lat :: rest =>
    match R.add a lat with
    | .error f => .error f
    | .ok a1 => addMany R a1 rest

/-- The report state after the `Add` and `Close` calls recorded in a log,
in order. -/
def replay {σ : Type} (R : Reporter σ) : σ → List (Action σ) → Except Fault σ
  | a, [] => .ok a
  | a, .added lat :: rest =>
    match R.add a lat with
    | .error f => .error f
    | .ok a1 => replay R a1 rest
  | a, .closed :: rest =>
    match R.closer with
    | none => replay R a rest
    | some close =>
      match close a with
      | .error f => .error f
      | .ok a1 => replay R a1 rest
  | a, .cleared :: rest => replay R a rest
  | a, .reported _ :: rest => replay R a rest

/-! ## Bucket lists as text -/

/-- The errors `Buckets.UnmarshalText` returns: its own format error
`bad buckets: <value>`, or the error of `time.ParseDuration` on a token. -/
inductive BucketsError where
  | badBuckets (value : List Char)
  | invalidDuration (token : List Char)
deriving DecidableEq, Repr

/-- Go `strings.Split(s, ",")` on a byte string: the pieces between the
commas, one piece (the empty one) for the empty string. -/
def splitComma : List Char → List (List Char)
  | [] => [[]]
  | c :: cs =>
    if c = ',' then [] :: splitComma cs
    else
      match splitComma cs with
      | [] => [[c]]
      | t :: ts => (c :: t) :: ts

/-- The `range` loop of `UnmarshalText` over the pieces still to parse:
the receiver after the loop, and the error that ended it, if any.  `parse`
stands for `time.ParseDuration` and `trim` for `strings.TrimSpace`. -/
def unmarshalLoop (parse : List Char → Option Int) (trim : List Char → List Char) :
    List Int → List (List Char) → List Int × Option BucketsError
  | bs, [] => (bs, none)
  | bs, v :: vs =>
    match parse (trim v) with
    | none => (bs, some (.invalidDuration (trim v)))
    | some d => unmarshalLoop parse trim (bs ++ [d]) vs

/-- Go `Buckets.UnmarshalText` on the receiver `bs`: the receiver after the
call and the error returned (`none` for nil).  A byte of `value` is a
`Char`. -/
def UnmarshalText (parse : List Char → Option Int) (trim : List Char → List Char)
    (bs : List Int) (value : List Char) : List Int × Option BucketsError :=
  if value.length < 2 ∨ value.head? ≠ some '[' ∨ value.getLast? ≠ some ']' then
    (bs, some (.badBuckets value))
  else
    match unmarshalLoop parse trim bs (splitComma ((value.take (value.length - 1)).drop 1)) with
    | (bs1, some e) => (bs1, some e)
    | (bs1, none) =>
      if bs1.length = 0 then (bs1, some (.badBuckets value)) else (bs1, none)

/-- Go index expression `bs[i]` with an `int` index. -/
def bucketAt (bs : List Int) (i : Int) : Except Fault Int :=
  if i < 0 then .error .outOfRange
  else
    match bs[i.toNat]? with
    | some d => .ok d
    | none => .error .outOfRange

/-- Go `Buckets.Nth`; `text` stands for `time.Duration.String`. -/
def Nth (text : Int → String) (bs : List Int) (i : Int) : Except Fault (String × String) :=
  if i ≥ (bs.length : Int) - 1 then
    match bucketAt bs i with
    | .error f => .error f
    | .ok lo => .ok (text lo, "+Inf")
  else
    match bucketAt bs i with
    | .error f => .error f
    | .ok lo =>
      match bucketAt bs (i + 1) with
      | .error f => .error f
      | .ok hi => .ok (text lo, text hi)

/-- The fraction digits Go's `fmtFrac` writes for the low `prec` decimal
digits of `v`, trailing zeros omitted, with the decimal point, and the rest
of `v`. -/
def fmtFrac : Nat → Nat → Bool → List Char → List Char × Nat
  | 0, v, pr, acc => (if pr then '.' :: acc else acc, v)
  | p + 1, v, pr, acc =>
    let digit := v % 10
    let pr1 := pr || decide (digit ≠ 0)
    fmtFrac p (v / 10) pr1 (if pr1 then Nat.digitChar digit :: acc else acc)

/-- The text Go's standard library gives a duration (`time.Duration.String`),
such as `0s`, `1ms`, `1.5s` or `2h45m0s`; it is used where an example needs
the labels themselves. -/
def durationString (d : Int) : String :=
  let u := d.natAbs
  let body : List Char :=
    if u < 1000000000 then
      if u = 0 then ['0', 's']
      else if u < 1000 then Nat.toDigits 10 u ++ ['n', 's']
      else if u < 1000000 then
        Nat.toDigits 10 (fmtFrac 3 u false []).2 ++ (fmtFrac 3 u false []).1 ++ ['µ', 's']
      else
        Nat.toDigits 10 (fmtFrac 6 u false []).2 ++ (fmtFrac 6 u false []).1 ++ ['m', 's']
    else
      let secs := Nat.toDigits 10 ((fmtFrac 9 u false []).2 % 60) ++ (fmtFrac 9 u false []).1
        ++ ['s']
      let mins := (fmtFrac 9 u false []).2 / 60
      if mins > 0 then
        (if mins / 60 > 0 then Nat.toDigits 10 (mins / 60) ++ ['h'] else [])
          ++ Nat.toDigits 10 (mins % 60) ++ ['m'] ++ secs
      else secs
  String.mk (if d < 0 then '-' :: body else body)

/-- Nanoseconds of the unit suffixes of a duration literal. -/
def unitNanos : List Char → Option Int
  | ['n', 's'] => some 1
  | ['u', 's'] => some 1000
  | ['m', 's'] => some 1000000
  | ['s'] => some 1000000000
  | ['m'] => some 60000000000
  | ['h'] => some 3600000000000
  | _ => none

/-- A duration parser for examples: it reads `0` and the literals made of
decimal digits followed by one unit (`ns`, `us`, `ms`, `s`, `m`, `h`), as
`time.ParseDuration` does, and rejects everything else. -/
def parseLiteral (s : List Char) : Option Int :=
  if s = ['0'] then some 0
  else if s.takeWhile Char.isDigit = [] then none
  else
    match unitNanos (s.dropWhile Char.isDigit) with
    | none => none
    | some u =>
      some (((s.takeWhile Char.isDigit).foldl (fun acc c => 10 * acc + (c.toNat - 48)) 0 : Nat) * u)

/-- A whitespace trimmer for examples: it removes leading and trailing
ASCII spaces and tabs. -/
def trimSpaces (s : List Char) : List Char :=
  ((s.dropWhile (fun c => c = ' ' || c = '\t')).reverse.dropWhile
    (fun c => c = ' ' || c = '\t')).reverse

/-! ## The set-up of `report` -/

/-- The errors `report` returns before its loop: the three errors about the
report type, an error of `UnmarshalText`, or an error of opening the input
(`decoder`) or the output (`file`). -/
inductive ReportError where
  | invalidType (typ : List Char)
  | plotDeprecated
  | unknownType (typ : List Char)
  | buckets (e : BucketsError)
  | external (e : Err)
deriving DecidableEq, Repr

/-- The report chosen by the `switch` of `report`. -/
inductive Kind where
  | text
  | json (hist : Option Histogram)
  | hist (h : Histogram)
deriving DecidableEq, Repr

/-- How the part of `report` before the loop ends: with an error returned,
or with a report chosen and the loop entered. -/
inductive Started where
  | failed (e : ReportError)
  | entered (k : Kind)
deriving DecidableEq, Repr

/-- The part of `report` before the loop: the length check on `typ`,
`decoder` and `file` (whose errors, if any, are `decoderErr` and `fileErr`),
and the `switch` on `typ[:4]`. -/
def reportSetup (parse : List Char → Option Int) (trim : List Char → List Char)
    (typ histStr : List Char) (decoderErr fileErr : Option Err) : Started :=
  if typ.length < 4 then .failed (.invalidType typ)
  else
    match decoderErr with
    | some e => .failed (.external e)
    | none =>
      match fileErr with
      | some e => .failed (.external e)
      | none =>
        if typ.take 4 = ['p', 'l', 'o', 't'] then .failed .plotDeprecated
        else if typ.take 4 = ['t', 'e', 'x', 't'] then .entered .text
        else if typ.take 4 = ['j', 's', 'o', 'n'] then
          if histStr ≠ [] then
            match UnmarshalText parse trim [] histStr with
            | (_, some e) => .failed (.buckets e)
            | (bs, none) => .entered (.json (some ⟨bs, [], 0, 0⟩))
          else .entered (.json none)
        else if typ.take 4 = ['h', 'i', 's', 't'] then
          if (if histStr = [] ∧ typ.length > 4 then typ.drop 4 else histStr) = [] then
            .entered (.hist ⟨[0, ms], [], 0, 2⟩)
          else
            match UnmarshalText parse trim []
                (if histStr = [] ∧ typ.length > 4 then typ.drop 4 else histStr) with
            | (_, some e) => .failed (.buckets e)
            | (bs, none) => .entered (.hist ⟨bs, [], 0, 0⟩)
        else .failed (.unknownType typ)

/-- How `report` ends: with an error before the loop, or with the outcome
of the loop and the final report, over the metrics report (`text`, `json`)
or over the histogram report. -/
inductive ReportRun (μ : Type) where
  | failed (e : ReportError)
  | metricsRun (o : Outcome μ)
  | histRun (o : Outcome Histogram)
deriving DecidableEq, Repr

/-- Go `report`.  The metrics report of the `text` and `json` cases
(`vegeta.Metrics`, which is not part of the sources) is a parameter: the
reporter `M`, started in the state `m0 hist`. -/
def report {μ : Type} (M : Reporter μ) (m0 : Option Histogram → μ) (fuel : Nat)
    (parse : List Char → Option Int) (trim : List Char → List Char)
    (typ histStr : List Char) (decoderErr fileErr : Option Err)
    (every : Int) (dec : Nat → Decoded) (finalErr : Option Err) (evs : List Event) :
    ReportRun μ :=
  match reportSetup parse trim typ histStr decoderErr fileErr with
  | .failed e => .failed e
  | .entered .text => .metricsRun (runLoop M every dec finalErr ⟨m0 none, 0, []⟩ evs)
  | .entered (.json h) => .metricsRun (runLoop M every dec finalErr ⟨m0 h, 0, []⟩ evs)
  | .entered (.hist h) =>
    .histRun (runLoop (histReporter fuel) every dec finalErr ⟨h, 0, []⟩ evs)

/-- A metrics report for examples: it counts the results added. -/
def countReporter : Reporter Nat :=
  { add := fun n _ => .ok (n + 1), closer := none }

/-- The loop state `report` returns in, if it returns. -/
def returnedState {σ : Type} : Outcome σ → Option (LoopState σ)
  | .returned _ s => some s
  | .fault _ => none

/-! ## Arithmetic of durations -/

theorem wrapInt64_of_inRange (z : Int) (h0 : 0 ≤ z) (h1 : z < int64Bound) : wrapInt64 z = z := by
  unfold wrapInt64 word64
  unfold int64Bound at *
  omega

theorem mulDuration_exact (e : Nat) (d : Int) (hd : 0 < d) (h1 : (e : Int) * d < int64Bound) :
    mulDuration e d = (e : Int) * d := by
  have he0 : (0 : Int) ≤ (e : Int) := Int.ofNat_nonneg e
  have hle : (e : Int) ≤ (e : Int) * d := by nlinarith
  have hp : (0 : Int) ≤ (e : Int) * d := by nlinarith
  unfold mulDuration
  rw [wrapInt64_of_inRange (e : Int) he0 (by omega)]
  exact wrapInt64_of_inRange _ hp h1

/-! ## The search loop of `getBucket` -/

theorem getBucketScan_some (bs : List Int) (lat : Int) :
    ∀ (n i j : Nat), getBucketScan bs lat n i = some j →
      i ≤ j ∧ j < i + n ∧ (bs.getD j 0 ≤ lat ∧ lat < bs.getD (j + 1) 0) ∧
      ∀ k, i ≤ k → k < j → ¬ (bs.getD k 0 ≤ lat ∧ lat < bs.getD (k + 1) 0) := by
  intro n
  induction n with
  | zero => intro i j h; simp [getBucketScan] at h
  | succ n ih =>
    intro i j h
    unfold getBucketScan at h
    by_cases hc : lat ≥ bs.getD i 0 ∧ lat < bs.getD (i + 1) 0
    · rw [if_pos hc] at h
      injection h with h
      subst h
      exact ⟨le_refl _, by omega, hc, fun k h1 h2 => by omega⟩
    · rw [if_neg hc] at h
      obtain ⟨h1, h2, h3, h4⟩ := ih (i + 1) j h
      refine ⟨by omega, by omega, h3, ?_⟩
      intro k hk1 hk2
      by_cases hki : k = i
      · subst hki; exact hc
      · exact h4 k (by omega) hk2

theorem getBucketScan_none (bs : List Int) (lat : Int) :
    ∀ (n i : Nat), getBucketScan bs lat n i = none →
      ∀ k, i ≤ k → k < i + n → ¬ (bs.getD k 0 ≤ lat ∧ lat < bs.getD (k + 1) 0) := by
  intro n
  induction n with
  | zero => intro i _ k h1 h2; omega
  | succ n ih =>
    intro i h k hk1 hk2
    unfold getBucketScan at h
    by_cases hc : lat ≥ bs.getD i 0 ∧ lat < bs.getD (i + 1) 0
    · rw [if_pos hc] at h; cases h
    · rw [if_neg hc] at h
      by_cases hki : k = i
      · subst hki; exact hc
      · exact ih (i + 1) h k (by omega) (by omega)

theorem scan_some_fits (bs : List Int) (lat : Int) (j : Nat)
    (h : getBucketScan bs lat (bs.length - 1) 0 = some j) :
    fits bs lat j ∧ ∀ k, k < j → ¬ fits bs lat k := by
  obtain ⟨_, h2, h3, h4⟩ := getBucketScan_some bs lat _ _ _ h
  refine ⟨⟨by omega, h3⟩, ?_⟩
  intro k hk hf
  exact h4 k (Nat.zero_le _) hk hf.2

theorem scan_none_iff (bs : List Int) (lat : Int) :
    getBucketScan bs lat (bs.length - 1) 0 = none ↔ ∀ k, ¬ fits bs lat k := by
  constructor
  · intro h k hf
    exact getBucketScan_none bs lat _ _ h k (Nat.zero_le _) (by have := hf.1; omega) hf.2
  · intro h
    cases hs : getBucketScan bs lat (bs.length - 1) 0 with
    | none => rfl
    | some j => exact absurd (scan_some_fits bs lat j hs).1 (h j)

theorem scan_of_fits (bs : List Int) (lat : Int) (i : Nat) (hf : fits bs lat i) :
    ∃ j, getBucketScan bs lat (bs.length - 1) 0 = some j ∧ fits bs lat j ∧ j ≤ i ∧
      ∀ k, k < j → ¬ fits bs lat k := by
  cases hs : getBucketScan bs lat (bs.length - 1) 0 with
  | none => exact absurd hf ((scan_none_iff bs lat).1 hs i)
  | some j =>
    obtain ⟨h1, h2⟩ := scan_some_fits bs lat j hs
    refine ⟨j, rfl, h1, ?_, h2⟩
    by_contra hlt
    exact h2 i (by omega) hf

theorem getBucket_of_scan_some (fuel : Nat) (h : Histogram) (lat : Int) (j : Nat)
    (hs : getBucketScan h.Buckets lat (h.Buckets.length - 1) 0 = some j) :
    getBucket fuel h lat = .ok (j, h) := by
  unfold getBucket
  rw [hs]

theorem getBucket_of_scan_none (fuel : Nat) (h : Histogram) (lat : Int)
    (hs : getBucketScan h.Buckets lat (h.Buckets.length - 1) 0 = none) :
    getBucket fuel h lat =
      if h.Exponent > 0 then makeBucket fuel h lat else .ok (h.Buckets.length - 1, h) := by
  unfold getBucket
  rw [hs]

/-- C7: when the latency fits some bucket, `getBucket` returns the lowest
index `j` with `Buckets[j] <= lat < Buckets[j+1]` and leaves the histogram,
its boundary list included, unchanged; the boundaries need not be sorted and
the growth factor is arbitrary. -/
theorem getBucket_lowest_fit (fuel : Nat) (h : Histogram) (lat : Int) (i : Nat)
    (hfit : fits h.Buckets lat i) :
    ∃ j, getBucket fuel h lat = .ok (j, h) ∧ fits h.Buckets lat j ∧ j ≤ i ∧
      ∀ k, k < j → ¬ fits h.Buckets lat k := by
  obtain ⟨j, hs, h1, h2, h3⟩ := scan_of_fits h.Buckets lat i hfit
  exact ⟨j, getBucket_of_scan_some fuel h lat j hs, h1, h2, h3⟩

/-- Witness of C7 on unsorted boundaries `[0, 5, 3, 9]` with latency `4`:
buckets 0 and 2 both fit, the lower one is returned. -/
theorem getBucket_lowest_fit_witness :
    fits [0, 5, 3, 9] 4 2 ∧
    ∃ j, getBucket 0 ⟨[0, 5, 3, 9], [], 0, 2⟩ 4 = .ok (j, ⟨[0, 5, 3, 9], [], 0, 2⟩) ∧
      fits [0, 5, 3, 9] 4 j ∧ j ≤ 2 ∧ ∀ k, k < j → ¬ fits [0, 5, 3, 9] 4 k :=
  ⟨by decide, getBucket_lowest_fit 0 ⟨[0, 5, 3, 9], [], 0, 2⟩ 4 2 (by decide)⟩

/-! ## The growth loop `makeBucket` -/

theorem makeBucketLoop_step (fuel : Nat) (h : Histogram) (lat : Int) (pre : List Int) (prev : Int)
    (hb : h.Buckets = pre ++ [prev]) :
    makeBucketLoop (fuel + 1) h.Buckets.length h lat =
      if lat ≥ prev ∧ lat < mulDuration h.Exponent prev then
        .ok (h.Buckets.length - 1,
          { h with Buckets := h.Buckets ++ [mulDuration h.Exponent prev] })
      else
        makeBucketLoop fuel (h.Buckets.length + 1)
          { h with Buckets := h.Buckets ++ [mulDuration h.Exponent prev] } lat := by
  have hlen : h.Buckets.length = pre.length + 1 := by rw [hb]; simp
  have h1 : h.Buckets[h.Buckets.length - 1]? = some prev := by
    rw [hlen, hb]; simp
  have h2 : (h.Buckets ++ [mulDuration h.Exponent prev])[h.Buckets.length - 1]? = some prev := by
    rw [List.getElem?_append_left (by omega)]; exact h1
  have h3 : (h.Buckets ++ [mulDuration h.Exponent prev])[h.Buckets.length]?
      = some (mulDuration h.Exponent prev) := by
    simp
  have hne : ¬ h.Buckets.length = 0 := by omega
  rw [makeBucketLoop, if_neg hne]
  simp only [h1, h2, h3]

theorem getD_concat_length (l : List Int) (x : Int) : (l ++ [x]).getD l.length 0 = x := by
  rw [List.getD_eq_getElem?_getD, List.getElem?_append_right (le_refl _)]
  simp

theorem makeBucketLoop_sound (lat : Int) :
    ∀ (fuel : Nat) (h : Histogram), h.Buckets ≠ [] →
      makeBucketLoop fuel h.Buckets.length h lat = .error .outOfFuel ∨
      ∃ j t, t ≠ [] ∧
        makeBucketLoop fuel h.Buckets.length h lat = .ok (j, { h with Buckets := h.Buckets ++ t }) ∧
        j + 2 = (h.Buckets ++ t).length ∧ fits (h.Buckets ++ t) lat j := by
  intro fuel
  induction fuel with
  | zero => intro h _; left; rfl
  | succ fuel ih =>
    intro h hne
    obtain ⟨pre, prev, hb⟩ : ∃ pre prev, h.Buckets = pre ++ [prev] :=
      ⟨_, _, (List.dropLast_append_getLast hne).symm⟩
    rw [makeBucketLoop_step fuel h lat pre prev hb]
    have hlen : h.Buckets.length = pre.length + 1 := by rw [hb]; simp
    have hprev : h.Buckets.getD (h.Buckets.length - 1) 0 = prev := by
      rw [hlen, hb]; simp
    by_cases hc : lat ≥ prev ∧ lat < mulDuration h.Exponent prev
    · rw [if_pos hc]
      right
      refine ⟨h.Buckets.length - 1, [mulDuration h.Exponent prev], by simp, rfl, ?_, ?_⟩
      · rw [List.length_append, List.length_singleton]; omega
      · have hlt : h.Buckets.length - 1 < h.Buckets.length := by omega
        have hs : h.Buckets.length - 1 + 1 = h.Buckets.length := by omega
        refine ⟨by rw [List.length_append, List.length_singleton]; omega, ?_, ?_⟩
        · rw [List.getD_append _ _ _ _ hlt, hprev]; exact hc.1
        · rw [hs, getD_concat_length]; exact hc.2
    · rw [if_neg hc]
      have hne1 : h.Buckets ++ [mulDuration h.Exponent prev] ≠ [] := by simp
      have key := ih { h with Buckets := h.Buckets ++ [mulDuration h.Exponent prev] } hne1
      have hl1 : (h.Buckets ++ [mulDuration h.Exponent prev]).length = h.Buckets.length + 1 := by
        rw [List.length_append, List.length_singleton]
      rw [hl1] at key
      rcases key with h1 | ⟨j, t, _, h2, h3, h4⟩
      · left; exact h1
      · right
        refine ⟨j, mulDuration h.Exponent prev :: t, List.cons_ne_nil _ _, ?_, ?_, ?_⟩
        · rw [h2, List.append_assoc]; rfl
        · rw [List.append_assoc] at h3; exact h3
        · rw [List.append_assoc] at h4; exact h4

theorem makeBucket_sound (fuel : Nat) (h : Histogram) (lat : Int) (hne : h.Buckets ≠ []) :
    makeBucket fuel h lat = .error .outOfFuel ∨
    ∃ j t, t ≠ [] ∧ makeBucket fuel h lat = .ok (j, { h with Buckets := h.Buckets ++ t }) ∧
      j + 2 = (h.Buckets ++ t).length ∧ fits (h.Buckets ++ t) lat j :=
  makeBucketLoop_sound lat fuel h hne

/-- What `getBucket` can do on a non-empty boundary list: run out of fuel
while growing, or return an index valid for the boundary list it leaves,
which is the old list with boundaries appended; nothing else changes. -/
theorem getBucket_sound (fuel : Nat) (h : Histogram) (lat : Int) (hne : h.Buckets ≠ []) :
    getBucket fuel h lat = .error .outOfFuel ∨
    ∃ j t, getBucket fuel h lat = .ok (j, { h with Buckets := h.Buckets ++ t }) ∧
      j < (h.Buckets ++ t).length := by
  have hlen : 0 < h.Buckets.length := List.length_pos.2 hne
  cases hs : getBucketScan h.Buckets lat (h.Buckets.length - 1) 0 with
  | some j =>
    right
    refine ⟨j, [], ?_, ?_⟩
    · rw [getBucket_of_scan_some fuel h lat j hs, List.append_nil]
    · have := (scan_some_fits _ _ _ hs).1.1
      rw [List.append_nil]; omega
  | none =>
    rw [getBucket_of_scan_none fuel h lat hs]
    by_cases he : h.Exponent > 0
    · rw [if_pos he]
      rcases makeBucket_sound fuel h lat hne with h1 | ⟨j, t, _, h2, h3, _⟩
      · left; exact h1
      · right; exact ⟨j, t, h2, by omega⟩
    · rw [if_neg he]
      right
      refine ⟨h.Buckets.length - 1, [], ?_, ?_⟩
      · rw [List.append_nil]
      · rw [List.append_nil]; omega

/-! ## `Add` -/

theorem extendCounts_eq (h : Histogram) :
    extendCounts h = { h with Counts := padCounts h.Counts h.Buckets.length } := by
  unfold extendCounts padCounts
  by_cases hc : h.Counts.length < h.Buckets.length
  · rw [if_pos hc]
  · rw [if_neg hc]
    have : h.Buckets.length - h.Counts.length = 0 := by omega
    rw [this, List.replicate_zero, List.append_nil]

theorem padCounts_length (cs : List Nat) (n : Nat) :
    (padCounts cs n).length = max cs.length n := by
  unfold padCounts
  rw [List.length_append, List.length_replicate]
  omega

theorem padCounts_getD (cs : List Nat) (n j : Nat) : (padCounts cs n).getD j 0 = cs.getD j 0 := by
  unfold padCounts
  rw [List.getD_eq_getElem?_getD, List.getD_eq_getElem?_getD]
  by_cases hj : j < cs.length
  · rw [List.getElem?_append_left hj]
  · have hle : cs.length ≤ j := by omega
    rw [List.getElem?_append_right hle, List.getElem?_replicate, List.getElem?_eq_none hle]
    split <;> rfl

theorem getD_set_self (l : List Nat) (i v : Nat) (hi : i < l.length) : (l.set i v).getD i 0 = v := by
  rw [List.getD_eq_getElem?_getD, List.getElem?_set_self hi]
  rfl

theorem getD_set_of_ne (l : List Nat) (i j v : Nat) (hij : j ≠ i) :
    (l.set i v).getD j 0 = l.getD j 0 := by
  rw [List.getD_eq_getElem?_getD, List.getD_eq_getElem?_getD, List.getElem?_set_ne (Ne.symm hij)]

theorem sum_set_succ (l : List Nat) : ∀ (i : Nat), i < l.length →
    (l.set i (l.getD i 0 + 1)).sum = l.sum + 1 := by
  induction l with
  | nil => intro i hi; simp at hi
  | cons a l ih =>
    intro i hi
    cases i with
    | zero => simp [List.set]; omega
    | succ i =>
      have hi1 : i < l.length := by simpa using hi
      have := ih i hi1
      simp only [List.set, List.sum_cons, List.getD_cons_succ]
      omega

theorem padCounts_sum (cs : List Nat) (n : Nat) : (padCounts cs n).sum = cs.sum := by
  unfold padCounts
  simp

/-- The result of `Add` once `getBucket` has returned an index inside the
padded `Counts`. -/
theorem Add_of_getBucket (fuel : Nat) (h h1 : Histogram) (lat : Int) (i : Nat)
    (hg : getBucket fuel h lat = .ok (i, h1))
    (hi : i < (padCounts h1.Counts h1.Buckets.length).length) :
    Add fuel h lat = .ok
      { Buckets := h1.Buckets
        Counts := (padCounts h1.Counts h1.Buckets.length).set i (h1.Counts.getD i 0 + 1)
        Total := h1.Total + 1
        Exponent := h1.Exponent } := by
  unfold Add
  rw [hg]
  simp only [extendCounts_eq]
  rw [if_pos hi, padCounts_getD]

/-- The shape of a successful `getBucket`: only boundaries are appended and
the index is valid for the boundary list that results. -/
theorem getBucket_ok_shape (fuel : Nat) (h h1 : Histogram) (lat : Int) (i : Nat)
    (hne : h.Buckets ≠ []) (hg : getBucket fuel h lat = .ok (i, h1)) :
    i < h1.Buckets.length ∧ ∃ t, h1 = { h with Buckets := h.Buckets ++ t } := by
  rcases getBucket_sound fuel h lat hne with h0 | ⟨j, t, h2, h3⟩
  · rw [h0] at hg; cases hg
  · rw [h2] at hg
    injection hg with hg
    injection hg with hj hh
    subst hj
    subst hh
    exact ⟨h3, t, rfl⟩

/-- C10: on a non-empty boundary list with `len(Counts) <= len(Buckets)`,
when `getBucket` returns index `i` and histogram `h1`, the index is valid for
the boundaries of `h1`, and `Add` returns the histogram whose boundaries are
those of `h1`, whose `Counts` is the old `Counts` padded with zeros to that
length with entry `i` increased by one and every other entry unchanged, and
whose `Total` is increased by one. -/
theorem Add_increments_bucket (fuel : Nat) (h h1 : Histogram) (lat : Int) (i : Nat)
    (hne : h.Buckets ≠ []) (hlen : h.Counts.length ≤ h.Buckets.length)
    (hg : getBucket fuel h lat = .ok (i, h1)) :
    i < h1.Buckets.length ∧
    ∃ h2, Add fuel h lat = .ok h2 ∧ h2.Buckets = h1.Buckets ∧ h2.Exponent = h.Exponent ∧
      h2.Total = h.Total + 1 ∧
      h2.Counts = (padCounts h.Counts h1.Buckets.length).set i (h.Counts.getD i 0 + 1) ∧
      h2.Counts.length = h1.Buckets.length ∧
      h2.Counts.getD i 0 = h.Counts.getD i 0 + 1 ∧
      ∀ j, j ≠ i → h2.Counts.getD j 0 = h.Counts.getD j 0 := by
  obtain ⟨hi, t, ht⟩ := getBucket_ok_shape fuel h h1 lat i hne hg
  have hc : h1.Counts = h.Counts := by rw [ht]
  have hlen1 : h.Counts.length ≤ h1.Buckets.length := by
    rw [ht]; simp only [List.length_append]; omega
  have hpl : (padCounts h.Counts h1.Buckets.length).length = h1.Buckets.length := by
    rw [padCounts_length]; omega
  have hadd := Add_of_getBucket fuel h h1 lat i hg (by rw [hc, hpl]; exact hi)
  rw [hc] at hadd
  refine ⟨hi, _, hadd, rfl, by rw [ht], by rw [ht], rfl, ?_, ?_, ?_⟩
  · simp only [List.length_set]; exact hpl
  · exact getD_set_self _ _ _ (by rw [hpl]; exact hi)
  · intro j hj
    simp only []
    rw [getD_set_of_ne _ _ _ _ hj, padCounts_getD]

/-- Witness of C10 with growth: boundaries `[0, 1ms]`, factor 2, latency
`5ms`; `getBucket` returns index 3 over five boundaries. -/
theorem Add_increments_bucket_witness :
    getBucket 10 ⟨[0, ms], [], 0, 2⟩ (5 * ms)
      = .ok (3, ⟨[0, ms, 2 * ms, 4 * ms, 8 * ms], [], 0, 2⟩) ∧
    Add 10 ⟨[0, ms], [], 0, 2⟩ (5 * ms)
      = .ok ⟨[0, ms, 2 * ms, 4 * ms, 8 * ms], [0, 0, 0, 1, 0], 1, 2⟩ ∧
    (3 < (Histogram.mk [0, ms, 2 * ms, 4 * ms, 8 * ms] [] 0 2).Buckets.length ∧
    ∃ h2, Add 10 ⟨[0, ms], [], 0, 2⟩ (5 * ms) = .ok h2 ∧
      h2.Buckets = (Histogram.mk [0, ms, 2 * ms, 4 * ms, 8 * ms] [] 0 2).Buckets ∧
      h2.Exponent = (Histogram.mk [0, ms] [] 0 2).Exponent ∧
      h2.Total = (Histogram.mk [0, ms] [] 0 2).Total + 1 ∧
      h2.Counts = (padCounts (Histogram.mk [0, ms] [] 0 2).Counts
          (Histogram.mk [0, ms, 2 * ms, 4 * ms, 8 * ms] [] 0 2).Buckets.length).set 3
          ((Histogram.mk [0, ms] [] 0 2).Counts.getD 3 0 + 1) ∧
      h2.Counts.length = (Histogram.mk [0, ms, 2 * ms, 4 * ms, 8 * ms] [] 0 2).Buckets.length ∧
      h2.Counts.getD 3 0 = (Histogram.mk [0, ms] [] 0 2).Counts.getD 3 0 + 1 ∧
      ∀ j, j ≠ 3 → h2.Counts.getD j 0 = (Histogram.mk [0, ms] [] 0 2).Counts.getD j 0) :=
  ⟨by decide, by decide,
    Add_increments_bucket 10 ⟨[0, ms], [], 0, 2⟩ ⟨[0, ms, 2 * ms, 4 * ms, 8 * ms], [], 0, 2⟩
      (5 * ms) 3 (by decide) (by decide) (by decide)⟩

theorem getD_length_pred_le (bs : List Int) (hs : bs.Pairwise (· < ·)) (i : Nat)
    (hi : i < bs.length) : bs.getD i 0 ≤ bs.getD (bs.length - 1) 0 := by
  have hl : bs.length - 1 < bs.length := by omega
  rw [List.getD_eq_getElem _ _ hi, List.getD_eq_getElem _ _ hl]
  by_cases he : i = bs.length - 1
  · subst he; exact le_refl _
  · exact le_of_lt (List.pairwise_iff_getElem.1 hs i (bs.length - 1) hi hl (by omega))

theorem getD_zero_le (bs : List Int) (hs : bs.Pairwise (· < ·)) (i : Nat)
    (hi : i < bs.length) : bs.getD 0 0 ≤ bs.getD i 0 := by
  have hl : 0 < bs.length := by omega
  rw [List.getD_eq_getElem _ _ hi, List.getD_eq_getElem _ _ hl]
  by_cases he : i = 0
  · subst he; exact le_refl _
  · exact le_of_lt (List.pairwise_iff_getElem.1 hs 0 i hl hi (by omega))

/-- On strictly increasing boundaries a latency at or beyond the last
boundary, or below the first one, fits no bucket. -/
theorem not_fits_of_outside (bs : List Int) (hs : bs.Pairwise (· < ·)) (lat : Int)
    (hout : bs.getD (bs.length - 1) 0 ≤ lat ∨ lat < bs.getD 0 0) : ∀ k, ¬ fits bs lat k := by
  intro k hf
  obtain ⟨h1, h2, h3⟩ := hf
  have hk1 := getD_length_pred_le bs hs (k + 1) h1
  have hk0 := getD_zero_le bs hs k (by omega)
  omega

/-- A latency that fits no bucket lies below the first boundary or at or
beyond the last one (no order on the boundaries is needed). -/
theorem outside_of_not_fits (bs : List Int) (lat : Int) (hno : ∀ k, ¬ fits bs lat k) :
    bs.getD (bs.length - 1) 0 ≤ lat ∨ lat < bs.getD 0 0 := by
  by_cases h0 : lat < bs.getD 0 0
  · right; exact h0
  · left
    have hall : ∀ i, i < bs.length → bs.getD i 0 ≤ lat := by
      intro i
      induction i with
      | zero => intro _; omega
      | succ i ih =>
        intro hi
        have hi0 := ih (by omega)
        by_contra hc
        exact hno i ⟨hi, hi0, by omega⟩
    by_cases hl : bs.length = 0
    · have : bs = [] := List.length_eq_zero.1 hl
      subst this
      simp at h0 ⊢
      exact h0
    · exact hall (bs.length - 1) (by omega)

/-- C8, as stated, fails: the boundary list `[0, 10, 5]` is non-empty, the
growth factor is 0 and the latency `7` is beyond the last boundary `5`, yet
the latency fits the interval `[0, 10)`: `getBucket` returns index 0, not the
last index 2, and `Add` counts the sample in bucket 0. -/
theorem catch_all_unsorted_counterexample :
    (Histogram.mk [0, 10, 5] [] 0 0).Exponent = 0 ∧
    (Histogram.mk [0, 10, 5] [] 0 0).Buckets ≠ [] ∧
    (Histogram.mk [0, 10, 5] [] 0 0).Buckets.getD
      ((Histogram.mk [0, 10, 5] [] 0 0).Buckets.length - 1) 0 < 7 ∧
    getBucket 0 ⟨[0, 10, 5], [], 0, 0⟩ 7 = .ok (0, ⟨[0, 10, 5], [], 0, 0⟩) ∧
    getBucket 0 ⟨[0, 10, 5], [], 0, 0⟩ 7
      ≠ .ok ((Histogram.mk [0, 10, 5] [] 0 0).Buckets.length - 1, ⟨[0, 10, 5], [], 0, 0⟩) ∧
    Add 0 ⟨[0, 10, 5], [], 0, 0⟩ 7 = .ok ⟨[0, 10, 5], [1, 0, 0], 1, 0⟩ := by
  decide

/-- C8, amended: with growth factor 0 and a non-empty boundary list, a
latency that fits no interval `[Buckets[i], Buckets[i+1])` makes `getBucket`
return the last index and the unchanged histogram, and `Add` counts the
sample in that last bucket: the last entry of the padded `Counts` and `Total`
go up by one, the boundaries stay.  When the boundaries are strictly
increasing, every latency at or beyond the last boundary is such a latency,
so that the same holds of it. -/
theorem getBucket_catch_all (fuel : Nat) (h : Histogram) (lat : Int)
    (hexp : h.Exponent = 0) (hne : h.Buckets ≠ []) :
    ((∀ i, ¬ fits h.Buckets lat i) →
      getBucket fuel h lat = .ok (h.Buckets.length - 1, h) ∧
      Add fuel h lat = .ok
        { Buckets := h.Buckets
          Counts := (padCounts h.Counts h.Buckets.length).set (h.Buckets.length - 1)
            (h.Counts.getD (h.Buckets.length - 1) 0 + 1)
          Total := h.Total + 1
          Exponent := h.Exponent }) ∧
    (h.Buckets.Pairwise (· < ·) → h.Buckets.getD (h.Buckets.length - 1) 0 ≤ lat →
      ∀ i, ¬ fits h.Buckets lat i) ∧
    (h.Buckets.Pairwise (· < ·) → h.Buckets.getD (h.Buckets.length - 1) 0 ≤ lat →
      getBucket fuel h lat = .ok (h.Buckets.length - 1, h) ∧
      Add fuel h lat = .ok
        { Buckets := h.Buckets
          Counts := (padCounts h.Counts h.Buckets.length).set (h.Buckets.length - 1)
            (h.Counts.getD (h.Buckets.length - 1) 0 + 1)
          Total := h.Total + 1
          Exponent := h.Exponent }) := by
  have hlen : 0 < h.Buckets.length := List.length_pos.2 hne
  have hmain : (∀ i, ¬ fits h.Buckets lat i) →
      getBucket fuel h lat = .ok (h.Buckets.length - 1, h) ∧
      Add fuel h lat = .ok
        { Buckets := h.Buckets
          Counts := (padCounts h.Counts h.Buckets.length).set (h.Buckets.length - 1)
            (h.Counts.getD (h.Buckets.length - 1) 0 + 1)
          Total := h.Total + 1
          Exponent := h.Exponent } := by
    intro hno
    have hg : getBucket fuel h lat = .ok (h.Buckets.length - 1, h) := by
      rw [getBucket_of_scan_none fuel h lat ((scan_none_iff _ _).2 hno), if_neg (by omega)]
    refine ⟨hg, Add_of_getBucket fuel h h lat _ hg ?_⟩
    rw [padCounts_length]
    omega
  exact ⟨hmain, fun hs hl => not_fits_of_outside h.Buckets hs lat (Or.inl hl),
    fun hs hl => hmain (not_fits_of_outside h.Buckets hs lat (Or.inl hl))⟩

/-- Witness of C8 (amended): boundaries `[0, 1ms, 10ms]` after the samples
`0.5ms` and `2ms`, latency `50ms`. -/
theorem getBucket_catch_all_witness :
    addAll 0 ⟨[0, ms, 10 * ms], [], 0, 0⟩ [500000, 2 * ms]
      = .ok ⟨[0, ms, 10 * ms], [1, 1, 0], 2, 0⟩ ∧
    (∀ i, ¬ fits [0, ms, 10 * ms] (50 * ms) i) ∧
    getBucket 0 ⟨[0, ms, 10 * ms], [1, 1, 0], 2, 0⟩ (50 * ms)
      = .ok (2, ⟨[0, ms, 10 * ms], [1, 1, 0], 2, 0⟩) ∧
    Add 0 ⟨[0, ms, 10 * ms], [1, 1, 0], 2, 0⟩ (50 * ms)
      = .ok ⟨[0, ms, 10 * ms], [1, 1, 1], 3, 0⟩ :=
  have key := getBucket_catch_all 0 ⟨[0, ms, 10 * ms], [1, 1, 0], 2, 0⟩ (50 * ms) rfl
    (by decide)
  ⟨by decide, key.2.1 (by decide) (by decide), key.2.2 (by decide) (by decide)⟩

/-- C9: with growth factor 0, `Close` returns the histogram as it was:
`Buckets`, `Counts`, `Total` and the growth factor are unchanged, whatever
the boundaries and counts are. -/
theorem Close_manual_noop (h : Histogram) (hexp : h.Exponent = 0) : Close h = .ok h := by
  unfold Close
  rw [if_pos hexp]

/-- Witness of C9: a fixed-boundary histogram with empty buckets. -/
theorem Close_manual_noop_witness :
    Close ⟨[0, ms, 10 * ms], [0, 3, 0], 3, 0⟩ = .ok ⟨[0, ms, 10 * ms], [0, 3, 0], 3, 0⟩ :=
  Close_manual_noop ⟨[0, ms, 10 * ms], [0, 3, 0], 3, 0⟩ rfl

/-! ## Sequences of samples -/

/-- One `Add` on a non-empty boundary list never faults out of range: it
runs out of fuel, or it returns a histogram with one more sample counted. -/
theorem Add_sound (fuel : Nat) (h : Histogram) (lat : Int) (hne : h.Buckets ≠ []) :
    Add fuel h lat = .error .outOfFuel ∨
    ∃ h2, Add fuel h lat = .ok h2 ∧ h2.Buckets ≠ [] ∧ h2.Counts.sum = h.Counts.sum + 1 ∧
      h2.Total = h.Total + 1 ∧ h2.Exponent = h.Exponent := by
  rcases getBucket_sound fuel h lat hne with h0 | ⟨j, t, h1, h2⟩
  · left
    unfold Add
    rw [h0]
  · right
    have hi : j < (padCounts h.Counts (h.Buckets ++ t).length).length := by
      rw [padCounts_length]; omega
    have hadd := Add_of_getBucket fuel h _ lat j h1 hi
    refine ⟨_, hadd, ?_, ?_, rfl, rfl⟩
    · intro he
      exact hne (List.append_eq_nil.1 he).1
    · show ((padCounts h.Counts (h.Buckets ++ t).length).set j (h.Counts.getD j 0 + 1)).sum = _
      rw [← padCounts_getD h.Counts (h.Buckets ++ t).length j, sum_set_succ _ j hi, padCounts_sum]

/-- With growth disabled `getBucket` returns for every fuel. -/
theorem getBucket_manual_ok (fuel : Nat) (h : Histogram) (lat : Int) (hexp : h.Exponent = 0) :
    ∃ j, getBucket fuel h lat = .ok (j, h) := by
  cases hs : getBucketScan h.Buckets lat (h.Buckets.length - 1) 0 with
  | some j => exact ⟨j, getBucket_of_scan_some fuel h lat j hs⟩
  | none =>
    refine ⟨h.Buckets.length - 1, ?_⟩
    rw [getBucket_of_scan_none fuel h lat hs, if_neg (by omega)]

theorem Add_manual_ok (fuel : Nat) (h : Histogram) (lat : Int) (hne : h.Buckets ≠ [])
    (hexp : h.Exponent = 0) : ∃ h2, Add fuel h lat = .ok h2 := by
  rcases Add_sound fuel h lat hne with h0 | ⟨h2, h1, _⟩
  · obtain ⟨j, hj⟩ := getBucket_manual_ok fuel h lat hexp
    unfold Add at h0
    rw [hj] at h0
    simp only [] at h0
    split at h0 <;> cases h0
  · exact ⟨h2, h1⟩

theorem addAll_sound (fuel : Nat) (lats : List Int) :
    ∀ (h : Histogram), h.Buckets ≠ [] →
      addAll fuel h lats ≠ .error .outOfRange ∧
      (∀ h2, addAll fuel h lats = .ok h2 →
        h2.Counts.sum = h.Counts.sum + lats.length ∧ h2.Total = h.Total + lats.length) ∧
      (h.Exponent = 0 → ∃ h2, addAll fuel h lats = .ok h2) := by
  induction lats with
  | nil =>
    intro h _
    refine ⟨by simp [addAll], ?_, fun _ => ⟨h, rfl⟩⟩
    intro h2 heq
    simp only [addAll] at heq
    injection heq with heq
    subst heq
    simp
  | cons lat rest ih =>
    intro h hne
    rcases Add_sound fuel h lat hne with h0 | ⟨h1, hadd, hne1, hsum, htot, hexp1⟩
    · have hall : addAll fuel h (lat :: rest) = .error .outOfFuel := by
        simp only [addAll, h0]
      refine ⟨by rw [hall]; simp, ?_, ?_⟩
      · intro h2 heq; rw [hall] at heq; cases heq
      · intro hexp
        obtain ⟨h2, hh⟩ := Add_manual_ok fuel h lat hne hexp
        rw [h0] at hh; cases hh
    · have hall : addAll fuel h (lat :: rest) = addAll fuel h1 rest := by
        simp only [addAll, hadd]
      obtain ⟨i1, i2, i3⟩ := ih h1 hne1
      rw [hall]
      refine ⟨i1, ?_, ?_⟩
      · intro h2 heq
        obtain ⟨a, b⟩ := i2 h2 heq
        simp only [List.length_cons]
        omega
      · intro hexp
        exact i3 (by rw [hexp1]; exact hexp)

/-- C1: starting from `Total = 0` and empty `Counts` over a non-empty
boundary list, a run of `Add` over `N` samples never faults out of range;
whenever all the `Add` calls return (with or without growth), the sum of
`Counts` equals `Total` equals `N`; and with growth disabled all of them
return, for every fuel. -/
theorem addAll_sum_total (fuel : Nat) (h : Histogram) (lats : List Int)
    (hne : h.Buckets ≠ []) (hc : h.Counts = []) (ht : h.Total = 0) :
    addAll fuel h lats ≠ .error .outOfRange ∧
    (∀ h2, addAll fuel h lats = .ok h2 →
      h2.Counts.sum = h2.Total ∧ h2.Total = lats.length) ∧
    (h.Exponent = 0 → ∃ h2, addAll fuel h lats = .ok h2) := by
  obtain ⟨i1, i2, i3⟩ := addAll_sound fuel lats h hne
  refine ⟨i1, ?_, i3⟩
  intro h2 heq
  obtain ⟨a, b⟩ := i2 h2 heq
  rw [hc] at a
  rw [ht] at b
  simp only [List.sum_nil] at a
  omega

/-- Witness of C1 with growth events: boundaries `[0, 1ms]`, factor 2, and
the three samples `5ms`, `0.5ms`, `20ms`. -/
theorem addAll_sum_total_witness :
    addAll 10 ⟨[0, ms], [], 0, 2⟩ [5 * ms, 500000, 20 * ms]
      = .ok ⟨[0, ms, 2 * ms, 4 * ms, 8 * ms, 16 * ms, 32 * ms], [1, 0, 0, 1, 0, 1, 0], 3, 2⟩ ∧
    (1 + 0 + 0 + 1 + 0 + 1 + 0 = 3 ∧ 3 = [5 * ms, 500000, 20 * ms].length) :=
  ⟨by decide,
    by
      have key := (addAll_sum_total 10 ⟨[0, ms], [], 0, 2⟩ [5 * ms, 500000, 20 * ms]
        (by decide) rfl rfl).2.1 _ (by decide :
          addAll 10 ⟨[0, ms], [], 0, 2⟩ [5 * ms, 500000, 20 * ms]
            = .ok ⟨[0, ms, 2 * ms, 4 * ms, 8 * ms, 16 * ms, 32 * ms],
                [1, 0, 0, 1, 0, 1, 0], 3, 2⟩)
      exact key⟩

/-! ## Growth by repeated multiplication -/

theorem growth_list_succ (g L : Int) (k : Nat) :
    (List.range (k + 1)).map (fun j => g ^ (j + 1) * L)
      = (g * L) :: (List.range k).map (fun j => g ^ (j + 1) * (g * L)) := by
  rw [List.range_succ_eq_map, List.map_cons, List.map_map]
  congr 1
  · simp
  · apply List.map_congr_left
    intro j _
    show g ^ (j + 1 + 1) * L = g ^ (j + 1) * (g * L)
    ring

theorem makeBucketLoop_grows (x : Int) :
    ∀ (k : Nat) (h : Histogram) (L : Int) (pre : List Int) (fuel : Nat),
      h.Buckets = pre ++ [L] → 0 < L → 1 ≤ h.Exponent →
      (∀ j, j ≤ k → (h.Exponent : Int) ^ j * L ≤ x) →
      x < (h.Exponent : Int) ^ (k + 1) * L →
      (h.Exponent : Int) ^ (k + 1) * L < int64Bound →
      k + 1 ≤ fuel →
      makeBucketLoop fuel h.Buckets.length h x = .ok (h.Buckets.length + k - 1,
        { h with Buckets := h.Buckets ++
            (List.range (k + 1)).map (fun j => (h.Exponent : Int) ^ (j + 1) * L) }) := by
  intro k
  induction k with
  | zero =>
    intro h L pre fuel hb hL hg hlow hup hex hfuel
    obtain ⟨f, rfl⟩ : ∃ f, fuel = f + 1 := ⟨fuel - 1, by omega⟩
    have h0 := hlow 0 (le_refl _)
    simp only [pow_zero, one_mul, zero_add, pow_one] at h0 hup hex
    rw [makeBucketLoop_step f h x pre L hb, mulDuration_exact _ _ hL hex, if_pos ⟨h0, hup⟩,
      growth_list_succ]
    rfl
  | succ k ih =>
    intro h L pre fuel hb hL hg hlow hup hex hfuel
    obtain ⟨f, rfl⟩ : ∃ f, fuel = f + 1 := ⟨fuel - 1, by omega⟩
    have hgpos : (1 : Int) ≤ (h.Exponent : Int) := by exact_mod_cast hg
    have h1 := hlow 1 (by omega)
    simp only [pow_one] at h1
    have hgL : (h.Exponent : Int) * L < int64Bound := by
      have : x < int64Bound := lt_trans hup hex
      omega
    have hgLpos : 0 < (h.Exponent : Int) * L := by positivity
    rw [makeBucketLoop_step f h x pre L hb, mulDuration_exact _ _ hL hgL,
      if_neg (by intro hc; omega)]
    have hlen : h.Buckets.length + 1
        = (Histogram.mk (h.Buckets ++ [(h.Exponent : Int) * L]) h.Counts h.Total
            h.Exponent).Buckets.length := by
      simp
    rw [hlen]
    rw [ih (Histogram.mk (h.Buckets ++ [(h.Exponent : Int) * L]) h.Counts h.Total h.Exponent)
      ((h.Exponent : Int) * L) h.Buckets f rfl hgLpos hg ?_ ?_ ?_ (by omega)]
    · rw [growth_list_succ (h.Exponent : Int) L (k + 1)]
      simp only [List.length_append, List.length_singleton, List.append_assoc,
        List.singleton_append]
      have : h.Buckets.length + 1 + k - 1 = h.Buckets.length + (k + 1) - 1 := by omega
      rw [this]
    · intro j hj
      have := hlow (j + 1) (by omega)
      rw [pow_succ, mul_assoc] at this
      exact this
    · rw [pow_succ, mul_assoc] at hup
      exact hup
    · rw [pow_succ, mul_assoc] at hex
      exact hex

theorem exists_growth_steps (g x L : Int) (hg : 2 ≤ g) (hL : 0 < L) (hx : L ≤ x) :
    ∃ k : Nat, (∀ j, j ≤ k → g ^ j * L ≤ x) ∧ x < g ^ (k + 1) * L := by
  have hex : ∃ n : Nat, x < g ^ n * L := by
    refine ⟨x.toNat, ?_⟩
    have h1 : x ≤ (x.toNat : Int) := Int.self_le_toNat x
    have h2 : ((x.toNat : Nat) : Int) < 2 ^ x.toNat := by exact_mod_cast Nat.lt_two_pow x.toNat
    have h3 : (2 : Int) ^ x.toNat ≤ g ^ x.toNat := pow_le_pow_left₀ (by norm_num) hg _
    have h4 : (0 : Int) < g ^ x.toNat := by positivity
    nlinarith
  classical
  have hmin : ∀ j, j < Nat.find hex → ¬ x < g ^ j * L := fun j hj => Nat.find_min hex hj
  have hspec := Nat.find_spec hex
  have hpos : Nat.find hex ≠ 0 := by
    intro h0
    rw [h0] at hspec
    simp at hspec
    omega
  obtain ⟨k, hk⟩ : ∃ k, Nat.find hex = k + 1 := ⟨Nat.find hex - 1, by omega⟩
  refine ⟨k, ?_, by rw [← hk]; exact hspec⟩
  intro j hj
  have := hmin j (by omega)
  omega

/-- C4: growth factor `g >= 2`, last boundary `L > 0`, latency `x >= L`
fitting no existing interval, and no product the loop computes leaves the
`int64` range.  Then there is a `k >= 1`, the least number with
`x < g^k * L`, such that `getBucket` returns for every fuel `>= k`: the old
boundaries stay as a prefix, exactly the `k` boundaries `g*L, ..., g^k*L`
are appended, and the index returned is that of the last-but-one boundary,
whose bucket the latency fits. -/
theorem getBucket_growth (h : Histogram) (x L : Int)
    (hg : 2 ≤ h.Exponent) (hlast : h.Buckets.getLast? = some L) (hL : 0 < L) (hx : L ≤ x)
    (hno : ∀ i, ¬ fits h.Buckets x i)
    (hexact : ∀ k : Nat, (∀ j, j < k → (h.Exponent : Int) ^ j * L ≤ x) →
      (h.Exponent : Int) ^ k * L < int64Bound) :
    ∃ k : Nat, 1 ≤ k ∧ x < (h.Exponent : Int) ^ k * L ∧
      (∀ j, j < k → (h.Exponent : Int) ^ j * L ≤ x) ∧
      ∀ fuel, k ≤ fuel →
        getBucket fuel h x = .ok (h.Buckets.length + k - 2,
          { h with Buckets := h.Buckets ++
              (List.range k).map (fun j => (h.Exponent : Int) ^ (j + 1) * L) }) ∧
        fits (h.Buckets ++ (List.range k).map (fun j => (h.Exponent : Int) ^ (j + 1) * L)) x
          (h.Buckets.length + k - 2) := by
  have hg2 : (2 : Int) ≤ (h.Exponent : Int) := by exact_mod_cast hg
  obtain ⟨k, hlow, hup⟩ := exists_growth_steps (h.Exponent : Int) x L hg2 hL hx
  obtain ⟨pre, hb⟩ := List.getLast?_eq_some_iff.1 hlast
  have hne : h.Buckets ≠ [] := by rw [hb]; simp
  have hlow1 : ∀ j, j < k + 1 → (h.Exponent : Int) ^ j * L ≤ x := fun j hj => hlow j (by omega)
  refine ⟨k + 1, by omega, hup, hlow1, ?_⟩
  intro fuel hfuel
  have hrun := makeBucketLoop_grows x k h L pre fuel hb hL (by omega) hlow hup
    (hexact (k + 1) hlow1) hfuel
  have hget : getBucket fuel h x = .ok (h.Buckets.length + (k + 1) - 2,
      { h with Buckets := h.Buckets ++
          (List.range (k + 1)).map (fun j => (h.Exponent : Int) ^ (j + 1) * L) }) := by
    rw [getBucket_of_scan_none fuel h x ((scan_none_iff _ _).2 hno), if_pos (by omega)]
    unfold makeBucket
    rw [hrun]
    have : h.Buckets.length + k - 1 = h.Buckets.length + (k + 1) - 2 := by omega
    rw [this]
  refine ⟨hget, ?_⟩
  rcases makeBucketLoop_sound x fuel h hne with h0 | ⟨j, t, _, h2, _, h4⟩
  · rw [hrun] at h0; cases h0
  · rw [hrun] at h2
    injection h2 with h2
    injection h2 with hj hh
    have ht : h.Buckets ++ (List.range (k + 1)).map (fun j => (h.Exponent : Int) ^ (j + 1) * L)
        = h.Buckets ++ t := congrArg Histogram.Buckets hh
    rw [ht]
    have : h.Buckets.length + (k + 1) - 2 = j := by omega
    rw [this]
    exact h4

theorem growth_in_range_example (k : Nat)
    (hk : ∀ j, j < k → ((2 : Nat) : Int) ^ j * ms ≤ 5 * ms) :
    ((2 : Nat) : Int) ^ k * ms < int64Bound := by
  have hk3 : k ≤ 3 := by
    by_contra hc
    have := hk 3 (by omega)
    exact absurd this (by decide)
  interval_cases k <;> decide

/-- Witness of C4: boundaries `[0, 1ms]`, `g = 2`, `x = 5ms` give boundaries
`[0, 1ms, 2ms, 4ms, 8ms]` and index 3. -/
theorem getBucket_growth_witness :
    getBucket 3 ⟨[0, ms], [], 0, 2⟩ (5 * ms)
      = .ok (3, ⟨[0, ms, 2 * ms, 4 * ms, 8 * ms], [], 0, 2⟩) ∧
    ∃ k : Nat, 1 ≤ k ∧ 5 * ms < ((2 : Nat) : Int) ^ k * ms ∧
      (∀ j, j < k → ((2 : Nat) : Int) ^ j * ms ≤ 5 * ms) ∧
      ∀ fuel, k ≤ fuel →
        getBucket fuel ⟨[0, ms], [], 0, 2⟩ (5 * ms) = .ok ([0, ms].length + k - 2,
          ⟨[0, ms] ++ (List.range k).map (fun j => ((2 : Nat) : Int) ^ (j + 1) * ms), [], 0, 2⟩) ∧
        fits ([0, ms] ++ (List.range k).map (fun j => ((2 : Nat) : Int) ^ (j + 1) * ms)) (5 * ms)
          ([0, ms].length + k - 2) :=
  ⟨by decide,
    getBucket_growth ⟨[0, ms], [], 0, 2⟩ (5 * ms) ms (by decide) (by decide) (by decide)
      (by decide) ((scan_none_iff _ _).1 (by decide)) growth_in_range_example⟩

/-! ## `Close` -/

theorem closeFirst_spec (cs : List Nat) :
    ∀ (n a : Nat), a ≤ closeFirst cs n a ∧ closeFirst cs n a ≤ a + n ∧
      (∀ k, a ≤ k → k < closeFirst cs n a → cs.getD k 0 = 0) ∧
      (closeFirst cs n a < a + n → 0 < cs.getD (closeFirst cs n a) 0) := by
  intro n
  induction n with
  | zero =>
    intro a
    simp only [closeFirst]
    exact ⟨le_refl _, le_refl _, fun k h1 h2 => by omega, fun h => by omega⟩
  | succ n ih =>
    intro a
    unfold closeFirst
    by_cases hc : cs.getD a 0 > 0
    · rw [if_pos hc]
      exact ⟨le_refl _, by omega, fun k h1 h2 => by omega, fun _ => hc⟩
    · rw [if_neg hc]
      obtain ⟨h1, h2, h3, h4⟩ := ih (a + 1)
      refine ⟨by omega, by omega, ?_, fun h => h4 (by omega)⟩
      intro k hk1 hk2
      by_cases hka : k = a
      · subst hka; omega
      · exact h3 k (by omega) hk2

theorem closeLast_spec (cs : List Nat) (a : Nat) :
    ∀ (n : Nat) (b : Int), b ≤ (a : Int) + n →
      (b ≤ (a : Int) → closeLast cs a n b = b) ∧
      ((a : Int) < b → (a : Int) ≤ closeLast cs a n b ∧ closeLast cs a n b ≤ b ∧
        (∀ k : Nat, closeLast cs a n b < (k : Int) → (k : Int) ≤ b → cs.getD k 0 = 0) ∧
        ((a : Int) < closeLast cs a n b → 0 < cs.getD (closeLast cs a n b).toNat 0)) := by
  intro n
  induction n with
  | zero =>
    intro b hb
    have h0 : closeLast cs a 0 b = b := rfl
    rw [h0]
    refine ⟨fun _ => rfl, fun h => ?_⟩
    simp only [Nat.cast_zero, add_zero] at hb
    omega
  | succ n ih =>
    intro b hb
    unfold closeLast
    by_cases hc : b > (a : Int)
    · rw [if_pos hc]
      refine ⟨fun h => by omega, fun _ => ?_⟩
      by_cases hp : cs.getD b.toNat 0 > 0
      · rw [if_pos hp]
        exact ⟨by omega, le_refl _, fun k h1 h2 => by omega, fun _ => hp⟩
      · rw [if_neg hp]
        have hb1 : b - 1 ≤ (a : Int) + n := by push_cast at hb; omega
        obtain ⟨i1, i2⟩ := ih (b - 1) hb1
        have hzero : ∀ k : Nat, (k : Int) = b → cs.getD k 0 = 0 := by
          intro k hk
          have : k = b.toNat := by omega
          rw [this]; omega
        by_cases hle : b - 1 ≤ (a : Int)
        · rw [i1 hle]
          refine ⟨by omega, by omega, ?_, fun h => by omega⟩
          intro k h1 h2
          exact hzero k (by omega)
        · obtain ⟨j1, j2, j3, j4⟩ := i2 (by omega)
          refine ⟨j1, by omega, ?_, j4⟩
          intro k h1 h2
          by_cases hkb : (k : Int) = b
          · exact hzero k hkb
          · exact j3 k h1 (by omega)
    · rw [if_neg hc]
      exact ⟨fun _ => rfl, fun h => absurd h hc⟩

theorem slice_ok {α : Type} (s : List α) (a b : Nat) (hab : a ≤ b + 1) (hb : b + 1 ≤ s.length) :
    slice s (a : Int) ((b : Int) + 1) = .ok ((s.take (b + 1)).drop a) := by
  unfold slice
  rw [if_pos ⟨by omega, by omega, by omega⟩]
  have h1 : ((b : Int) + 1).toNat = b + 1 := by omega
  have h2 : (a : Int).toNat = a := by omega
  rw [h1, h2]

theorem getD_window (cs : List Nat) (a b j : Nat) (hj : a + j ≤ b) :
    ((cs.take (b + 1)).drop a).getD j 0 = cs.getD (a + j) 0 := by
  rw [List.getD_eq_getElem?_getD, List.getD_eq_getElem?_getD, List.getElem?_drop,
    List.getElem?_take_of_lt (by omega)]

/-- The two scans of `Close` on counts that are not all zero: they stop at
the first and at the last index with a positive count. -/
theorem close_scans (cs : List Nat) (hnz : ∃ i, 0 < cs.getD i 0) :
    ∃ a b : Nat, closeFirst cs cs.length 0 = a ∧
      closeLast cs a cs.length ((cs.length : Int) - 1) = (b : Int) ∧
      a ≤ b ∧ b < cs.length ∧ 0 < cs.getD a 0 ∧ (∀ i, i < a → cs.getD i 0 = 0) ∧
      0 < cs.getD b 0 ∧ (∀ i, b < i → cs.getD i 0 = 0) := by
  obtain ⟨i0, hi0⟩ := hnz
  have hi0len : i0 < cs.length := by
    by_contra hc
    rw [List.getD_eq_default _ _ (by omega)] at hi0
    exact absurd hi0 (lt_irrefl 0)
  obtain ⟨_, a2, a3, a4⟩ := closeFirst_spec cs cs.length 0
  generalize ha : closeFirst cs cs.length 0 = a at a2 a3 a4
  have halt : a < cs.length := by
    by_contra hc
    have := a3 i0 (Nat.zero_le _) (by omega)
    omega
  have hapos : 0 < cs.getD a 0 := a4 (by omega)
  obtain ⟨b1, b2⟩ := closeLast_spec cs a cs.length ((cs.length : Int) - 1) (by omega)
  generalize hr : closeLast cs a cs.length ((cs.length : Int) - 1) = r at b1 b2
  have hbeyond : ∀ i, cs.length ≤ i → cs.getD i 0 = 0 := fun i hi =>
    List.getD_eq_default _ _ hi
  by_cases hle : (cs.length : Int) - 1 ≤ (a : Int)
  · have hr1 := b1 hle
    have hra : r = (a : Int) := by omega
    refine ⟨a, a, rfl, hr.trans hra, le_refl _, halt, hapos,
      fun i hi => a3 i (Nat.zero_le _) hi, hapos, ?_⟩
    intro i hi
    exact hbeyond i (by omega)
  · obtain ⟨c1, c2, c3, c4⟩ := b2 (by omega)
    have hrn : r = ((r.toNat : Nat) : Int) := by omega
    refine ⟨a, r.toNat, rfl, hr.trans hrn, by omega, by omega, hapos,
      fun i hi => a3 i (Nat.zero_le _) hi, ?_, ?_⟩
    · by_cases hra : (a : Int) < r
      · exact c4 hra
      · have : r.toNat = a := by omega
        rw [this]; exact hapos
    · intro i hi
      by_cases hil : i < cs.length
      · exact c3 i (by omega) (by omega)
      · exact hbeyond i (by omega)

/-- C6: growth factor `> 0`, `len(Counts) <= len(Buckets)` and some non-zero
count.  With `a` the first and `b` the last index whose count is positive,
`Close` replaces `Counts` by `Counts[a..b]` and `Buckets` by `Buckets[a..b]`
(both ends included); both lists then have length `b-a+1`, and the first and
the last remaining count are positive. -/
theorem Close_prunes (h : Histogram) (hexp : 0 < h.Exponent)
    (hlen : h.Counts.length ≤ h.Buckets.length) (hnz : ∃ i, 0 < h.Counts.getD i 0) :
    ∃ a b : Nat, a ≤ b ∧ b < h.Counts.length ∧
      0 < h.Counts.getD a 0 ∧ (∀ i, i < a → h.Counts.getD i 0 = 0) ∧
      0 < h.Counts.getD b 0 ∧ (∀ i, b < i → h.Counts.getD i 0 = 0) ∧
      Close h = .ok { h with Counts := (h.Counts.take (b + 1)).drop a
                             Buckets := (h.Buckets.take (b + 1)).drop a } ∧
      ((h.Counts.take (b + 1)).drop a).length = b - a + 1 ∧
      ((h.Buckets.take (b + 1)).drop a).length = b - a + 1 ∧
      0 < ((h.Counts.take (b + 1)).drop a).getD 0 0 ∧
      0 < ((h.Counts.take (b + 1)).drop a).getD (b - a) 0 := by
  obtain ⟨a, b, ha, hb, hab, hbl, h1, h2, h3, h4⟩ := close_scans h.Counts hnz
  refine ⟨a, b, hab, hbl, h1, h2, h3, h4, ?_, ?_, ?_, ?_, ?_⟩
  · unfold Close
    rw [if_neg (by omega)]
    simp only [ha, hb]
    rw [slice_ok h.Counts a b (by omega) (by omega), slice_ok h.Buckets a b (by omega) (by omega)]
  · rw [List.length_drop, List.length_take]; omega
  · rw [List.length_drop, List.length_take]; omega
  · rw [getD_window _ _ _ _ (by omega)]; exact h1
  · rw [getD_window _ _ _ _ (by omega)]
    have : a + (b - a) = b := by omega
    rw [this]; exact h3

/-- Witness of C6: boundaries `[0, 1ms, 2ms, 3ms, 4ms, 5ms]`, counts
`[0, 0, 5, 3, 0]` give counts `[5, 3]` and boundaries `[2ms, 3ms]`. -/
theorem Close_prunes_witness :
    Close ⟨[0, ms, 2 * ms, 3 * ms, 4 * ms, 5 * ms], [0, 0, 5, 3, 0], 8, 2⟩
      = .ok ⟨[2 * ms, 3 * ms], [5, 3], 8, 2⟩ ∧
    ∃ a b : Nat, a ≤ b ∧ b < [0, 0, 5, 3, 0].length ∧
      0 < [0, 0, 5, 3, 0].getD a 0 ∧ (∀ i, i < a → [0, 0, 5, 3, 0].getD i 0 = 0) ∧
      0 < [0, 0, 5, 3, 0].getD b 0 ∧ (∀ i, b < i → [0, 0, 5, 3, 0].getD i 0 = 0) ∧
      Close ⟨[0, ms, 2 * ms, 3 * ms, 4 * ms, 5 * ms], [0, 0, 5, 3, 0], 8, 2⟩
        = .ok ⟨([0, ms, 2 * ms, 3 * ms, 4 * ms, 5 * ms].take (b + 1)).drop a,
            ([0, 0, 5, 3, 0].take (b + 1)).drop a, 8, 2⟩ ∧
      (([0, 0, 5, 3, 0].take (b + 1)).drop a).length = b - a + 1 ∧
      (([0, ms, 2 * ms, 3 * ms, 4 * ms, 5 * ms].take (b + 1)).drop a).length = b - a + 1 ∧
      0 < (([0, 0, 5, 3, 0].take (b + 1)).drop a).getD 0 0 ∧
      0 < (([0, 0, 5, 3, 0].take (b + 1)).drop a).getD (b - a) 0 :=
  ⟨by decide,
    Close_prunes ⟨[0, ms, 2 * ms, 3 * ms, 4 * ms, 5 * ms], [0, 0, 5, 3, 0], 8, 2⟩
      (by decide) (by decide) ⟨2, by decide⟩⟩

/-! ## Fixed boundaries: which bucket counts which sample -/

theorem getBucket_manual (fuel : Nat) (h : Histogram) (lat : Int) (hexp : h.Exponent = 0) :
    getBucket fuel h lat = .ok (bucketOf h.Buckets lat, h) := by
  unfold bucketOf
  cases hs : getBucketScan h.Buckets lat (h.Buckets.length - 1) 0 with
  | some j => exact getBucket_of_scan_some fuel h lat j hs
  | none => rw [getBucket_of_scan_none fuel h lat hs, if_neg (by omega)]

theorem bucketOf_lt (bs : List Int) (lat : Int) (hne : bs ≠ []) : bucketOf bs lat < bs.length := by
  have hlen : 0 < bs.length := List.length_pos.2 hne
  unfold bucketOf
  cases hs : getBucketScan bs lat (bs.length - 1) 0 with
  | some j =>
    have := (scan_some_fits bs lat j hs).1.1
    show j < bs.length
    omega
  | none => show bs.length - 1 < bs.length; omega

theorem fits_unique (bs : List Int) (hs : bs.Pairwise (· < ·)) (lat : Int) (i j : Nat)
    (hi : fits bs lat i) (hj : fits bs lat j) : i = j := by
  obtain ⟨i1, i2, i3⟩ := hi
  obtain ⟨j1, j2, j3⟩ := hj
  have hget : ∀ a b, a < b → b < bs.length → bs.getD a 0 < bs.getD b 0 := by
    intro a b hab hb
    rw [List.getD_eq_getElem _ _ (by omega : a < bs.length), List.getD_eq_getElem _ _ hb]
    exact List.pairwise_iff_getElem.1 hs a b (by omega) hb hab
  by_contra hne
  rcases Nat.lt_or_gt_of_ne hne with hlt | hgt
  · by_cases he : i + 1 = j
    · subst he; omega
    · have := hget (i + 1) j (by omega) (by omega); omega
  · by_cases he : j + 1 = i
    · subst he; omega
    · have := hget (j + 1) i (by omega) (by omega); omega

theorem bucketOf_eq_inner (bs : List Int) (hs : bs.Pairwise (· < ·)) (lat : Int) (j : Nat)
    (hj : j + 1 < bs.length) : bucketOf bs lat = j ↔ fits bs lat j := by
  unfold bucketOf
  cases hsc : getBucketScan bs lat (bs.length - 1) 0 with
  | some i =>
    have hfi := (scan_some_fits bs lat i hsc).1
    constructor
    · intro h; have h1 : i = j := h; rw [← h1]; exact hfi
    · intro h; exact fits_unique bs hs lat i j hfi h
  | none =>
    constructor
    · intro h; have h1 : bs.length - 1 = j := h; omega
    · intro h; exact absurd h ((scan_none_iff bs lat).1 hsc j)

theorem bucketOf_eq_last (bs : List Int) (hs : bs.Pairwise (· < ·)) (lat : Int) :
    bucketOf bs lat = bs.length - 1 ↔
      (bs.getD (bs.length - 1) 0 ≤ lat ∨ lat < bs.getD 0 0) := by
  unfold bucketOf
  cases hsc : getBucketScan bs lat (bs.length - 1) 0 with
  | some i =>
    have hfi := (scan_some_fits bs lat i hsc).1
    constructor
    · intro h; have h1 : i = bs.length - 1 := h; have := hfi.1; omega
    · intro h; exact absurd hfi (not_fits_of_outside bs hs lat h i)
  | none =>
    constructor
    · intro _; exact outside_of_not_fits bs lat ((scan_none_iff bs lat).1 hsc)
    · intro _; rfl

theorem Add_manual (fuel : Nat) (h : Histogram) (lat : Int) (hexp : h.Exponent = 0)
    (hne : h.Buckets ≠ []) :
    ∃ h2, Add fuel h lat = .ok h2 ∧ h2.Buckets = h.Buckets ∧ h2.Exponent = h.Exponent ∧
      h2.Total = h.Total + 1 ∧
      ∀ j, h2.Counts.getD j 0
        = h.Counts.getD j 0 + if bucketOf h.Buckets lat = j then 1 else 0 := by
  have hlt := bucketOf_lt h.Buckets lat hne
  have hi : bucketOf h.Buckets lat < (padCounts h.Counts h.Buckets.length).length := by
    rw [padCounts_length]; omega
  refine ⟨_, Add_of_getBucket fuel h h lat _ (getBucket_manual fuel h lat hexp) hi,
    rfl, rfl, rfl, ?_⟩
  intro j
  show ((padCounts h.Counts h.Buckets.length).set (bucketOf h.Buckets lat)
    (h.Counts.getD (bucketOf h.Buckets lat) 0 + 1)).getD j 0 = _
  by_cases hj : bucketOf h.Buckets lat = j
  · rw [if_pos hj, ← hj, getD_set_self _ _ _ hi]
  · rw [if_neg hj, getD_set_of_ne _ _ _ _ (Ne.symm hj), padCounts_getD]
    rfl

theorem addAll_manual (fuel : Nat) (lats : List Int) :
    ∀ (h : Histogram), h.Exponent = 0 → h.Buckets ≠ [] →
      ∃ h2, addAll fuel h lats = .ok h2 ∧ h2.Buckets = h.Buckets ∧
        h2.Total = h.Total + lats.length ∧
        ∀ j, h2.Counts.getD j 0
          = h.Counts.getD j 0 + lats.countP (fun x => decide (bucketOf h.Buckets x = j)) := by
  induction lats with
  | nil =>
    intro h _ _
    exact ⟨h, rfl, rfl, rfl, fun j => by simp⟩
  | cons lat rest ih =>
    intro h hexp hne
    obtain ⟨h1, hadd, hb, he, ht, hc⟩ := Add_manual fuel h lat hexp hne
    obtain ⟨h2, hall, hb2, ht2, hc2⟩ := ih h1 (by rw [he]; exact hexp) (by rw [hb]; exact hne)
    refine ⟨h2, ?_, by rw [hb2, hb], ?_, ?_⟩
    · simp only [addAll, hadd]; exact hall
    · rw [ht2, ht, List.length_cons]; omega
    · intro j
      rw [hc2 j, hc j, hb, List.countP_cons]
      by_cases hj : bucketOf h.Buckets lat = j
      · simp only [hj, if_true, decide_True]; omega
      · simp only [hj, if_false, decide_False]
        simp

/-- C5, as stated, fails: on the boundaries `[1ms, 10ms]` (non-empty,
non-negative, strictly increasing, growth disabled, no counts) the sample
`0.5ms` is counted in the last bucket although it is not `>= 10ms`. -/
theorem manual_counts_counterexample :
    (Histogram.mk [ms, 10 * ms] [] 0 0).Exponent = 0 ∧
    (Histogram.mk [ms, 10 * ms] [] 0 0).Counts = [] ∧
    (Histogram.mk [ms, 10 * ms] [] 0 0).Buckets ≠ [] ∧
    (∀ b ∈ (Histogram.mk [ms, 10 * ms] [] 0 0).Buckets, 0 ≤ b) ∧
    (Histogram.mk [ms, 10 * ms] [] 0 0).Buckets.Pairwise (· < ·) ∧
    (∀ x ∈ [(500000 : Int)], 0 ≤ x) ∧
    addAll 0 ⟨[ms, 10 * ms], [], 0, 0⟩ [500000] = .ok ⟨[ms, 10 * ms], [0, 1], 1, 0⟩ ∧
    (Histogram.mk [ms, 10 * ms] [0, 1] 1 0).Counts.getD 1 0
      ≠ [(500000 : Int)].countP (fun x => decide (10 * ms ≤ x)) := by
  decide

/-- C5, amended: growth disabled, no counts initially, a non-empty,
non-negative, strictly increasing boundary list and samples of non-negative
latency.  `Add` over the samples returns, for every fuel; the boundaries are
unchanged and `Total` grows by the number of samples; for every index `i`
below the last, `Counts[i]` is the number of samples with
`Buckets[i] <= latency < Buckets[i+1]`; and `Counts[last]` is the number of
samples with `latency >= Buckets[last]` or `latency < Buckets[0]`, which is
the number of samples with `latency >= Buckets[last]` when `Buckets[0] = 0`.
An index beyond the length of `Counts` reads as zero. -/
theorem addAll_manual_counts (fuel : Nat) (h : Histogram) (lats : List Int)
    (hexp : h.Exponent = 0) (hc : h.Counts = []) (hne : h.Buckets ≠ [])
    (hnn : ∀ b ∈ h.Buckets, 0 ≤ b) (hs : h.Buckets.Pairwise (· < ·))
    (hl : ∀ x ∈ lats, 0 ≤ x) :
    ∃ h2, addAll fuel h lats = .ok h2 ∧ h2.Buckets = h.Buckets ∧
      h2.Total = h.Total + lats.length ∧
      (∀ i, i + 1 < h.Buckets.length →
        h2.Counts.getD i 0 = lats.countP
          (fun x => decide (h.Buckets.getD i 0 ≤ x ∧ x < h.Buckets.getD (i + 1) 0))) ∧
      h2.Counts.getD (h.Buckets.length - 1) 0 = lats.countP
        (fun x => decide (h.Buckets.getD (h.Buckets.length - 1) 0 ≤ x ∨ x < h.Buckets.getD 0 0)) ∧
      (h.Buckets.getD 0 0 = 0 →
        h2.Counts.getD (h.Buckets.length - 1) 0 = lats.countP
          (fun x => decide (h.Buckets.getD (h.Buckets.length - 1) 0 ≤ x))) := by
  have _ := hnn
  obtain ⟨h2, hall, hb, ht, hcnt⟩ := addAll_manual fuel lats h hexp hne
  have hzero : ∀ j, h.Counts.getD j 0 = 0 := by
    intro j; rw [hc]; rfl
  have hlast : h2.Counts.getD (h.Buckets.length - 1) 0 = lats.countP
      (fun x => decide (h.Buckets.getD (h.Buckets.length - 1) 0 ≤ x ∨ x < h.Buckets.getD 0 0)) := by
    rw [hcnt, hzero, Nat.zero_add]
    apply List.countP_congr
    intro x _
    simp only [decide_eq_true_eq]
    exact bucketOf_eq_last h.Buckets hs x
  refine ⟨h2, hall, hb, ht, ?_, hlast, ?_⟩
  · intro i hi
    rw [hcnt, hzero, Nat.zero_add]
    apply List.countP_congr
    intro x _
    simp only [decide_eq_true_eq]
    rw [bucketOf_eq_inner h.Buckets hs x i hi]
    unfold fits
    constructor
    · intro hf; exact hf.2
    · intro hf; exact ⟨hi, hf⟩
  · intro h0
    rw [hlast]
    apply List.countP_congr
    intro x hx
    simp only [decide_eq_true_eq]
    have := hl x hx
    rw [h0]
    omega

/-- Witness of C5 (amended): boundaries `[0, 1ms, 10ms]`, latencies `0.5ms`,
`2ms`, `50ms` give counts `[1, 1, 1]` and total 3. -/
theorem addAll_manual_counts_witness :
    addAll 0 ⟨[0, ms, 10 * ms], [], 0, 0⟩ [500000, 2 * ms, 50 * ms]
      = .ok ⟨[0, ms, 10 * ms], [1, 1, 1], 3, 0⟩ ∧
    ∃ h2, addAll 0 ⟨[0, ms, 10 * ms], [], 0, 0⟩ [500000, 2 * ms, 50 * ms] = .ok h2 ∧
      h2.Buckets = [0, ms, 10 * ms] ∧
      h2.Total = 0 + [500000, 2 * ms, 50 * ms].length ∧
      (∀ i, i + 1 < [0, ms, 10 * ms].length →
        h2.Counts.getD i 0 = [500000, 2 * ms, 50 * ms].countP
          (fun x => decide ([0, ms, 10 * ms].getD i 0 ≤ x ∧ x < [0, ms, 10 * ms].getD (i + 1) 0))) ∧
      h2.Counts.getD ([0, ms, 10 * ms].length - 1) 0 = [500000, 2 * ms, 50 * ms].countP
        (fun x => decide ([0, ms, 10 * ms].getD ([0, ms, 10 * ms].length - 1) 0 ≤ x
          ∨ x < [0, ms, 10 * ms].getD 0 0)) ∧
      ([0, ms, 10 * ms].getD 0 0 = 0 →
        h2.Counts.getD ([0, ms, 10 * ms].length - 1) 0 = [500000, 2 * ms, 50 * ms].countP
          (fun x => decide ([0, ms, 10 * ms].getD ([0, ms, 10 * ms].length - 1) 0 ≤ x))) :=
  ⟨by decide,
    addAll_manual_counts 0 ⟨[0, ms, 10 * ms], [], 0, 0⟩ [500000, 2 * ms, 50 * ms]
      rfl rfl (by decide) (by decide) (by decide) (by decide)⟩

/-! ## The decode loop -/

/-- C2 fails on the code: a serviced timer tick runs `writeReport`, which
calls `Close` on the histogram before `Report`.  On the auto-binned histogram
that has counted one `5ms` sample, the tick step prunes boundaries
`[0, 1ms, 2ms, 4ms, 8ms]` to `[4ms]` and counts `[0, 0, 0, 1, 0]` to `[1]`; a
`0.5ms` sample, which fitted bucket 0 before the tick, fits no bucket after
it. -/
theorem tick_step_closes_histogram :
    loopStep (histReporter 10) 1 (fun _ => Decoded.eof)
        ⟨⟨[0, ms, 2 * ms, 4 * ms, 8 * ms], [0, 0, 0, 1, 0], 1, 2⟩, 1, [.added (5 * ms)]⟩
        ⟨false, true, false, none, none⟩
      = .next ⟨⟨[4 * ms], [1], 1, 2⟩, 1,
          [.added (5 * ms), .cleared, .closed, .reported ⟨[4 * ms], [1], 1, 2⟩]⟩ ∧
    (Histogram.mk [4 * ms] [1] 1 2)
      ≠ Histogram.mk [0, ms, 2 * ms, 4 * ms, 8 * ms] [0, 0, 0, 1, 0] 1 2 ∧
    fits [0, ms, 2 * ms, 4 * ms, 8 * ms] 500000 0 ∧
    getBucketScan [4 * ms] 500000 ([4 * ms].length - 1) 0 = none := by
  decide

theorem selectCase_sig (every : Int) (ev : Event) (hsig : ev.sig = true) :
    selectCase every ev =
      if (decide (every > 0) && ev.tick) = true ∧ ev.pickSig = false then Case.tick
      else Case.sig := by
  unfold selectCase
  rw [hsig]
  cases hp : ev.pickSig <;> cases ht : (decide (every > 0) && ev.tick) <;> simp [ht]

theorem tickBranch_log {σ : Type} (R : Reporter σ) (s s1 : LoopState σ) (ev : Event)
    (hres : tickBranch R s ev = .next s1 ∨ ∃ e, tickBranch R s ev = .ret e s1) :
    s1.decoded = s.decoded ∧
    ∃ extra, s1.log = s.log ++ extra ∧ ∀ lat, Action.added lat ∉ extra := by
  unfold tickBranch writeReport at hres
  cases hce : ev.clearErr with
  | some e =>
    simp only [hce] at hres
    rcases hres with h | ⟨e1, h⟩
    · cases h
    · injection h with _ h2
      subst h2
      exact ⟨rfl, [], by simp, by simp⟩
  | none =>
    simp only [hce] at hres
    cases hcl : R.closer with
    | none =>
      simp only [hcl] at hres
      cases hre : ev.reportErr with
      | none =>
        simp only [hre] at hres
        rcases hres with h | ⟨e1, h⟩
        · injection h with h2
          subst h2
          exact ⟨rfl, [.cleared, .reported s.agg], by simp, by simp⟩
        · cases h
      | some e =>
        simp only [hre] at hres
        rcases hres with h | ⟨e1, h⟩
        · cases h
        · injection h with _ h2
          subst h2
          exact ⟨rfl, [.cleared, .reported s.agg], by simp, by simp⟩
    | some close =>
      simp only [hcl] at hres
      cases hc : close s.agg with
      | error f =>
        simp only [hc] at hres
        rcases hres with h | ⟨e1, h⟩ <;> cases h
      | ok a =>
        simp only [hc] at hres
        cases hre : ev.reportErr with
        | none =>
          simp only [hre] at hres
          rcases hres with h | ⟨e1, h⟩
          · injection h with h2
            subst h2
            exact ⟨rfl, [.cleared, .closed, .reported a], by simp, by simp⟩
          · cases h
        | some e =>
          simp only [hre] at hres
          rcases hres with h | ⟨e1, h⟩
          · cases h
          · injection h with _ h2
            subst h2
            exact ⟨rfl, [.cleared, .closed, .reported a], by simp, by simp⟩

theorem tickBranch_ne_leave {σ : Type} (R : Reporter σ) (s s1 : LoopState σ) (ev : Event) :
    tickBranch R s ev ≠ .leave s1 := by
  unfold tickBranch
  intro h
  split at h
  · cases h
  · split at h <;> cases h

/-- C3, as stated, fails: a histogram report with fixed boundaries
`[0, 1ms]` has decoded and added one `0.5ms` result; in the next iteration a
stop signal is pending and a timer tick is ready, and `select` picks the
tick.  The iteration writes an intermediate report and the loop goes on
instead of being left. -/
theorem stop_pending_counterexample :
    loopStep (histReporter 0) 1 (fun _ => Decoded.result 500000)
        ⟨⟨[0, ms], [], 0, 0⟩, 0, []⟩ (Event.mk false false false none none)
      = .next ⟨⟨[0, ms], [1, 0], 1, 0⟩, 1, [.added 500000]⟩ ∧
    (Event.mk true true false none none).sig = true ∧
    loopStep (histReporter 0) 1 (fun _ => Decoded.result 500000)
        ⟨⟨[0, ms], [1, 0], 1, 0⟩, 1, [.added 500000]⟩ (Event.mk true true false none none)
      = .next ⟨⟨[0, ms], [1, 0], 1, 0⟩, 1,
          [.added 500000, .cleared, .closed, .reported ⟨[0, ms], [1, 0], 1, 0⟩]⟩ ∧
    loopStep (histReporter 0) 1 (fun _ => Decoded.result 500000)
        ⟨⟨[0, ms], [1, 0], 1, 0⟩, 1, [.added 500000]⟩ (Event.mk true true false none none)
      ≠ .leave ⟨⟨[0, ms], [1, 0], 1, 0⟩, 1, [.added 500000]⟩ := by
  decide

/-- The outcomes of the tick branch, case by case: the error of `clear`, a
fault of `Close`, the error of `Report`, or the loop going on. -/
theorem tickBranch_cases {σ : Type} (R : Reporter σ) (s : LoopState σ) (ev : Event) :
    (∀ e, ev.clearErr = some e → tickBranch R s ev = .ret e s) ∧
    (ev.clearErr = none → R.closer = none →
      (ev.reportErr = none → tickBranch R s ev
        = .next ⟨s.agg, s.decoded, s.log ++ [.cleared, .reported s.agg]⟩) ∧
      (∀ e, ev.reportErr = some e → tickBranch R s ev
        = .ret e ⟨s.agg, s.decoded, s.log ++ [.cleared, .reported s.agg]⟩)) ∧
    (ev.clearErr = none → ∀ close a, R.closer = some close → close s.agg = .ok a →
      (ev.reportErr = none → tickBranch R s ev
        = .next ⟨a, s.decoded, s.log ++ [.cleared, .closed, .reported a]⟩) ∧
      (∀ e, ev.reportErr = some e → tickBranch R s ev
        = .ret e ⟨a, s.decoded, s.log ++ [.cleared, .closed, .reported a]⟩)) ∧
    (ev.clearErr = none → ∀ close f, R.closer = some close → close s.agg = .error f →
      tickBranch R s ev = .fault f) := by
  refine ⟨?_, ?_, ?_, ?_⟩
  · intro e hce
    simp only [tickBranch, hce]
  · intro hce hcl
    refine ⟨?_, ?_⟩
    · intro hre
      simp [tickBranch, writeReport, hce, hcl, hre]
    · intro e hre
      simp [tickBranch, writeReport, hce, hcl, hre]
  · intro hce close a hcl hca
    refine ⟨?_, ?_⟩
    · intro hre
      simp [tickBranch, writeReport, hce, hcl, hca, hre]
    · intro e hre
      simp [tickBranch, writeReport, hce, hcl, hca, hre]
  · intro hce close f hcl hca
    simp [tickBranch, writeReport, hce, hcl, hca]

/-- C3, amended: in an iteration in which a stop signal is pending the
`default` case is never the one that runs, so nothing is decoded or added,
even when input is available.  When no timer tick is ready in the same
iteration, or `select` picks the stop case, the loop is left for
finalization with the state unchanged (no `Add`, no intermediate `Report`).
When a tick is ready too and `select` picks it, the iteration is the tick
branch: if `clear` fails, its error is returned with the state unchanged;
otherwise `Close` is called when the report has one (a fault of `Close` ends
the run) and `Report` is called on the state so obtained; if `Report` fails
its error is returned, otherwise the loop goes on.  Whatever state the
iteration ends in has the same number of decoded results and a log extended
by actions none of which is an `Add`. -/
theorem stop_pending_step {σ : Type} (R : Reporter σ) (every : Int) (dec : Nat → Decoded)
    (s : LoopState σ) (ev : Event) (hsig : ev.sig = true) :
    selectCase every ev ≠ Case.default ∧
    (¬ (every > 0 ∧ ev.tick = true) ∨ ev.pickSig = true →
      loopStep R every dec s ev = .leave s) ∧
    (every > 0 ∧ ev.tick = true ∧ ev.pickSig = false →
      loopStep R every dec s ev = tickBranch R s ev) ∧
    (∀ s1, (loopStep R every dec s ev = .next s1 ∨ loopStep R every dec s ev = .leave s1 ∨
        ∃ e, loopStep R every dec s ev = .ret e s1) →
      s1.decoded = s.decoded ∧
      ∃ extra, s1.log = s.log ++ extra ∧ ∀ lat, Action.added lat ∉ extra) ∧
    (every > 0 ∧ ev.tick = true ∧ ev.pickSig = false →
      (∀ e, ev.clearErr = some e → loopStep R every dec s ev = .ret e s) ∧
      (ev.clearErr = none → R.closer = none →
        (ev.reportErr = none → loopStep R every dec s ev
          = .next ⟨s.agg, s.decoded, s.log ++ [.cleared, .reported s.agg]⟩) ∧
        (∀ e, ev.reportErr = some e → loopStep R every dec s ev
          = .ret e ⟨s.agg, s.decoded, s.log ++ [.cleared, .reported s.agg]⟩)) ∧
      (ev.clearErr = none → ∀ close a, R.closer = some close → close s.agg = .ok a →
        (ev.reportErr = none → loopStep R every dec s ev
          = .next ⟨a, s.decoded, s.log ++ [.cleared, .closed, .reported a]⟩) ∧
        (∀ e, ev.reportErr = some e → loopStep R every dec s ev
          = .ret e ⟨a, s.decoded, s.log ++ [.cleared, .closed, .reported a]⟩)) ∧
      (ev.clearErr = none → ∀ close f, R.closer = some close → close s.agg = .error f →
        loopStep R every dec s ev = .fault f)) := by
  have hsel := selectCase_sig every ev hsig
  have hleave : ¬ ((decide (every > 0) && ev.tick) = true ∧ ev.pickSig = false) →
      loopStep R every dec s ev = .leave s := by
    intro hc
    unfold loopStep
    rw [hsel, if_neg hc]
  have htick : ((decide (every > 0) && ev.tick) = true ∧ ev.pickSig = false) →
      loopStep R every dec s ev = tickBranch R s ev := by
    intro hc
    unfold loopStep
    rw [hsel, if_pos hc]
  refine ⟨?_, ?_, ?_, ?_, ?_⟩
  · rw [hsel]
    split <;> simp
  · intro hc
    apply hleave
    intro hc2
    simp only [Bool.and_eq_true, decide_eq_true_eq] at hc2
    rcases hc with hc | hc
    · exact hc hc2.1
    · rw [hc] at hc2; exact absurd hc2.2 (by simp)
  · intro hc
    apply htick
    simp only [Bool.and_eq_true, decide_eq_true_eq]
    exact ⟨⟨hc.1, hc.2.1⟩, hc.2.2⟩
  · intro s1 hres
    by_cases hc : (decide (every > 0) && ev.tick) = true ∧ ev.pickSig = false
    · rw [htick hc] at hres
      rcases hres with h | h | h
      · exact tickBranch_log R s s1 ev (Or.inl h)
      · exact absurd h (tickBranch_ne_leave R s s1 ev)
      · exact tickBranch_log R s s1 ev (Or.inr h)
    · rw [hleave hc] at hres
      rcases hres with h | h | ⟨e, h⟩
      · cases h
      · injection h with h2
        subst h2
        exact ⟨rfl, [], by simp, by simp⟩
      · cases h
  · intro hc
    have ht : loopStep R every dec s ev = tickBranch R s ev := by
      apply htick
      simp only [Bool.and_eq_true, decide_eq_true_eq]
      exact ⟨⟨hc.1, hc.2.1⟩, hc.2.2⟩
    rw [ht]
    exact tickBranch_cases R s ev

/-- Witness of C3 (amended): one `0.5ms` result has been added; stop
pending, tick ready and input available.  When `select` picks the stop case
the loop is left with the state unchanged; when it picks the tick the loop
goes on after `Close` and `Report`. -/
theorem stop_pending_step_witness :
    loopStep (histReporter 0) 1 (fun _ => Decoded.result 500000)
        ⟨⟨[0, ms], [1, 0], 1, 0⟩, 1, [.added 500000]⟩ (Event.mk true true true none none)
      = .leave ⟨⟨[0, ms], [1, 0], 1, 0⟩, 1, [.added 500000]⟩ ∧
    loopStep (histReporter 0) 1 (fun _ => Decoded.result 500000)
        ⟨⟨[0, ms], [1, 0], 1, 0⟩, 1, [.added 500000]⟩ (Event.mk true true false none none)
      = .next ⟨⟨[0, ms], [1, 0], 1, 0⟩, 1,
          [.added 500000] ++ [.cleared, .closed, .reported ⟨[0, ms], [1, 0], 1, 0⟩]⟩ :=
  ⟨(stop_pending_step (histReporter 0) 1 (fun _ => Decoded.result 500000)
      ⟨⟨[0, ms], [1, 0], 1, 0⟩, 1, [.added 500000]⟩ (Event.mk true true true none none)
      rfl).2.1 (Or.inr rfl),
    ((stop_pending_step (histReporter 0) 1 (fun _ => Decoded.result 500000)
      ⟨⟨[0, ms], [1, 0], 1, 0⟩, 1, [.added 500000]⟩ (Event.mk true true false none none)
      rfl).2.2.2.2 ⟨by decide, rfl, rfl⟩).2.2.1 rfl Close ⟨[0, ms], [1, 0], 1, 0⟩ rfl
      (by decide) |>.1 rfl⟩

/-! ## `Close` on degenerate counts, range safety and idempotence -/

theorem close_scans_zero (cs : List Nat) (hz : ∀ i, cs.getD i 0 = 0) :
    closeFirst cs cs.length 0 = cs.length ∧
    closeLast cs cs.length cs.length ((cs.length : Int) - 1) = (cs.length : Int) - 1 := by
  obtain ⟨_, a2, _, a4⟩ := closeFirst_spec cs cs.length 0
  have ha : closeFirst cs cs.length 0 = cs.length := by
    by_contra hne
    have := a4 (by omega)
    rw [hz] at this
    exact absurd this (lt_irrefl 0)
  refine ⟨ha, ?_⟩
  exact (closeLast_spec cs cs.length cs.length ((cs.length : Int) - 1) (by omega)).1 (by omega)

theorem slice_empty {α : Type} (s : List α) (n : Nat) (hn : n ≤ s.length) :
    slice s (n : Int) ((n : Int) - 1 + 1) = .ok [] := by
  unfold slice
  rw [if_pos ⟨by omega, by omega, by omega⟩]
  have h1 : ((n : Int) - 1 + 1).toNat = n := by omega
  have h2 : (n : Int).toNat = n := by omega
  rw [h1, h2]
  congr 1
  apply List.drop_eq_nil_of_le
  rw [List.length_take]
  omega

theorem all_zero_or_positive (cs : List Nat) :
    (∀ i, cs.getD i 0 = 0) ∨ ∃ i, 0 < cs.getD i 0 := by
  by_cases h : ∃ i, 0 < cs.getD i 0
  · right; exact h
  · left
    intro i
    by_contra hc
    exact h ⟨i, by omega⟩

/-- With growth enabled and counts that are all zero (or empty), `Close`
leaves neither a count nor a boundary. -/
theorem Close_all_zero (h : Histogram) (hexp : 0 < h.Exponent)
    (hlen : h.Counts.length ≤ h.Buckets.length) (hz : ∀ i, h.Counts.getD i 0 = 0) :
    Close h = .ok { h with Counts := [], Buckets := [] } := by
  obtain ⟨ha, hb⟩ := close_scans_zero h.Counts hz
  unfold Close
  rw [if_neg (by omega)]
  simp only [ha, hb]
  rw [slice_empty h.Counts h.Counts.length (le_refl _), slice_empty h.Buckets h.Counts.length hlen]

theorem Close_exponent_zero (h : Histogram) (hexp : h.Exponent = 0) : Close h = .ok h := by
  unfold Close
  rw [if_pos hexp]

/-- With growth enabled and some positive count, `Close` keeps the window
between the first and the last positive count. -/
theorem Close_window (h : Histogram) (hexp : 0 < h.Exponent)
    (hlen : h.Counts.length ≤ h.Buckets.length) (hnz : ∃ i, 0 < h.Counts.getD i 0) :
    ∃ a b : Nat, a ≤ b ∧ b < h.Counts.length ∧
      0 < h.Counts.getD a 0 ∧ (∀ i, i < a → h.Counts.getD i 0 = 0) ∧
      0 < h.Counts.getD b 0 ∧ (∀ i, b < i → h.Counts.getD i 0 = 0) ∧
      Close h = .ok { h with Counts := (h.Counts.take (b + 1)).drop a
                             Buckets := (h.Buckets.take (b + 1)).drop a } := by
  obtain ⟨a, b, ha, hb, hab, hbl, h1, h2, h3, h4⟩ := close_scans h.Counts hnz
  refine ⟨a, b, hab, hbl, h1, h2, h3, h4, ?_⟩
  unfold Close
  rw [if_neg (by omega)]
  simp only [ha, hb]
  rw [slice_ok h.Counts a b (by omega) (by omega), slice_ok h.Buckets a b (by omega) (by omega)]

/-- The histogram `Close` returns, whenever `len(Counts) <= len(Buckets)`:
the scans never produce an invalid slice. -/
theorem Close_ok (h : Histogram) (hlen : h.Counts.length ≤ h.Buckets.length) :
    ∃ h1, Close h = .ok h1 := by
  by_cases hexp : h.Exponent = 0
  · exact ⟨h, Close_exponent_zero h hexp⟩
  · rcases all_zero_or_positive h.Counts with hz | hnz
    · exact ⟨_, Close_all_zero h (by omega) hlen hz⟩
    · obtain ⟨a, b, _, _, _, _, _, _, hc⟩ := Close_window h (by omega) hlen hnz
      exact ⟨_, hc⟩

theorem close_scan_bounds (cs : List Nat) :
    ((closeFirst cs cs.length 0 : Nat) : Int)
        ≤ closeLast cs (closeFirst cs cs.length 0) cs.length ((cs.length : Int) - 1) + 1 ∧
    closeLast cs (closeFirst cs cs.length 0) cs.length ((cs.length : Int) - 1) + 1
        ≤ (cs.length : Int) := by
  rcases all_zero_or_positive cs with hz | hnz
  · obtain ⟨ha, hb⟩ := close_scans_zero cs hz
    rw [ha, hb]
    omega
  · obtain ⟨a, b, ha, hb, hab, hbl, _⟩ := close_scans cs hnz
    rw [ha, hb]
    omega

theorem slice_of_bounds {α : Type} (s : List α) (lo hi : Int) (h0 : 0 ≤ lo) (h1 : lo ≤ hi)
    (h2 : hi ≤ (s.length : Int)) : slice s lo hi = .ok ((s.take hi.toNat).drop lo.toNat) := by
  unfold slice
  rw [if_pos ⟨h0, h1, h2⟩]

/-- C20: whenever `len(Counts) <= len(Buckets)`, also for counts that are
all zero or empty, the indices `a` and `b` computed by the two scans of
`Close` satisfy `0 <= a <= b+1 <= len(Counts)`; both slice expressions
`Counts[a:b+1]` and `Buckets[a:b+1]` are valid, and `Close` returns a
histogram (its fault branch is not taken). -/
theorem Close_slices_in_range (h : Histogram) (hlen : h.Counts.length ≤ h.Buckets.length) :
    (0 : Int) ≤ ((closeFirst h.Counts h.Counts.length 0 : Nat) : Int) ∧
    ((closeFirst h.Counts h.Counts.length 0 : Nat) : Int)
      ≤ closeLast h.Counts (closeFirst h.Counts h.Counts.length 0) h.Counts.length
          ((h.Counts.length : Int) - 1) + 1 ∧
    closeLast h.Counts (closeFirst h.Counts h.Counts.length 0) h.Counts.length
        ((h.Counts.length : Int) - 1) + 1 ≤ (h.Counts.length : Int) ∧
    (∃ cs, slice h.Counts ((closeFirst h.Counts h.Counts.length 0 : Nat) : Int)
      (closeLast h.Counts (closeFirst h.Counts h.Counts.length 0) h.Counts.length
          ((h.Counts.length : Int) - 1) + 1) = .ok cs) ∧
    (∃ bs, slice h.Buckets ((closeFirst h.Counts h.Counts.length 0 : Nat) : Int)
      (closeLast h.Counts (closeFirst h.Counts h.Counts.length 0) h.Counts.length
          ((h.Counts.length : Int) - 1) + 1) = .ok bs) ∧
    ∃ h1, Close h = .ok h1 := by
  obtain ⟨h1, h2⟩ := close_scan_bounds h.Counts
  exact ⟨by omega, h1, h2, ⟨_, slice_of_bounds _ _ _ (by omega) h1 h2⟩,
    ⟨_, slice_of_bounds _ _ _ (by omega) h1 (by omega)⟩, Close_ok h hlen⟩

/-- Witness of C20 on counts that are all zero: `a = 2`, `b = 1`, and both
slices `[2:2]` are valid. -/
theorem Close_slices_in_range_witness :
    closeFirst [0, 0] 2 0 = 2 ∧ closeLast [0, 0] 2 2 1 = 1 ∧
    ∃ h1, Close ⟨[0, ms], [0, 0], 0, 2⟩ = .ok h1 :=
  ⟨by decide, by decide,
    (Close_slices_in_range ⟨[0, ms], [0, 0], 0, 2⟩ (by decide)).2.2.2.2.2⟩

/-- C15 fails on the code: with growth enabled and `Counts` empty or all
zero, `Close` slices `Buckets[a:b+1]` with `a = b+1` and leaves an empty
boundary list; a following `Add` then indexes `Buckets[-1]` in `makeBucket`
and panics. -/
theorem Close_empties_buckets :
    Close ⟨[0, ms], [], 0, 2⟩ = .ok ⟨[], [], 0, 2⟩ ∧
    Close ⟨[0, ms], [0, 0], 0, 2⟩ = .ok ⟨[], [], 0, 2⟩ ∧
    (Histogram.mk [] [] 0 2).Buckets.length = 0 ∧
    Add 10 ⟨[], [], 0, 2⟩ ms = .error .outOfRange := by
  decide

theorem sum_eq_zero_of_getD (l : List Nat) (hz : ∀ i, l.getD i 0 = 0) : l.sum = 0 := by
  induction l with
  | nil => rfl
  | cons a l ih =>
    have h0 : a = 0 := hz 0
    have ht : ∀ i, l.getD i 0 = 0 := fun i => hz (i + 1)
    rw [List.sum_cons, ih ht, h0]

theorem window_sum (cs : List Nat) (a b : Nat) (hab : a ≤ b)
    (hlo : ∀ i, i < a → cs.getD i 0 = 0) (hhi : ∀ i, b < i → cs.getD i 0 = 0) :
    ((cs.take (b + 1)).drop a).sum = cs.sum := by
  have h1 : cs.sum = (cs.take (b + 1)).sum + (cs.drop (b + 1)).sum :=
    (List.sum_take_add_sum_drop cs (b + 1)).symm
  have h2 : (cs.take (b + 1)).sum
      = ((cs.take (b + 1)).take a).sum + ((cs.take (b + 1)).drop a).sum :=
    (List.sum_take_add_sum_drop (cs.take (b + 1)) a).symm
  have z1 : (cs.drop (b + 1)).sum = 0 := by
    apply sum_eq_zero_of_getD
    intro i
    rw [List.getD_eq_getElem?_getD, List.getElem?_drop, ← List.getD_eq_getElem?_getD]
    exact hhi _ (by omega)
  have z2 : ((cs.take (b + 1)).take a).sum = 0 := by
    apply sum_eq_zero_of_getD
    intro i
    rw [List.take_take, List.getD_eq_getElem?_getD]
    by_cases hi : i < min a (b + 1)
    · rw [List.getElem?_take_of_lt hi, ← List.getD_eq_getElem?_getD]
      exact hlo i (by omega)
    · rw [List.getElem?_take_eq_none (by omega)]
      rfl
  omega

/-- A histogram with growth enabled whose first and last count are
positive, over as many boundaries as counts, is left as it is by `Close`. -/
theorem Close_fixed_of_ends (V : List Int) (W : List Nat) (T e : Nat) (hexp : 0 < e)
    (hlen : W.length = V.length) (h0 : 0 < W.getD 0 0) (hl : 0 < W.getD (W.length - 1) 0) :
    Close ⟨V, W, T, e⟩ = .ok ⟨V, W, T, e⟩ := by
  obtain ⟨a1, b1, _, hb1l, _, hzlo, _, hzhi, hc⟩ :=
    Close_window ⟨V, W, T, e⟩ hexp (le_of_eq hlen) ⟨0, h0⟩
  dsimp only at hb1l hzlo hzhi hc
  have ha1 : a1 = 0 := by
    by_contra hne
    have := hzlo 0 (by omega)
    omega
  have hb1 : b1 + 1 = W.length := by
    by_contra hne
    have := hzhi (W.length - 1) (by omega)
    omega
  rw [hc, ha1, hb1]
  simp only [List.drop_zero]
  rw [List.take_of_length_le (le_refl _), List.take_of_length_le (by omega)]

/-- After `Close` has kept the window between the first and the last
positive count, a second `Close` keeps all of it. -/
theorem Close_window_fixed (h : Histogram) (hexp : 0 < h.Exponent) (a b : Nat) (hab : a ≤ b)
    (hbl : b < h.Counts.length) (hlen : h.Counts.length ≤ h.Buckets.length)
    (ha : 0 < h.Counts.getD a 0) (hb : 0 < h.Counts.getD b 0) :
    Close { h with Counts := (h.Counts.take (b + 1)).drop a
                   Buckets := (h.Buckets.take (b + 1)).drop a }
      = .ok { h with Counts := (h.Counts.take (b + 1)).drop a
                     Buckets := (h.Buckets.take (b + 1)).drop a } := by
  have hWlen : ((h.Counts.take (b + 1)).drop a).length = b - a + 1 := by
    rw [List.length_drop, List.length_take]; omega
  have hVlen : ((h.Buckets.take (b + 1)).drop a).length = b - a + 1 := by
    rw [List.length_drop, List.length_take]; omega
  apply Close_fixed_of_ends _ _ _ _ hexp (by rw [hWlen, hVlen])
  · rw [getD_window _ _ _ _ (by omega)]; exact ha
  · rw [hWlen, getD_window _ _ _ _ (by omega)]
    have : a + (b - a + 1 - 1) = b := by omega
    rw [this]; exact hb

/-- C19: whenever `len(Counts) <= len(Buckets)`, for any growth factor,
`Close` returns a histogram on which a second `Close` changes nothing
(`Buckets`, `Counts`, `Total` and the growth factor stay), and the sum of
`Counts` after `Close` equals the sum before it, as does `Total`. -/
theorem Close_idempotent_sum (h : Histogram) (hlen : h.Counts.length ≤ h.Buckets.length) :
    ∃ h1, Close h = .ok h1 ∧ Close h1 = .ok h1 ∧ h1.Counts.sum = h.Counts.sum ∧
      h1.Total = h.Total := by
  by_cases hexp : h.Exponent = 0
  · exact ⟨h, Close_exponent_zero h hexp, Close_exponent_zero h hexp, rfl, rfl⟩
  · have hpos : 0 < h.Exponent := by omega
    rcases all_zero_or_positive h.Counts with hz | hnz
    · refine ⟨_, Close_all_zero h hpos hlen hz, ?_, ?_, rfl⟩
      · exact Close_all_zero { h with Counts := [], Buckets := [] } hpos (le_refl _)
          (fun i => rfl)
      · show ([] : List Nat).sum = _
        rw [sum_eq_zero_of_getD h.Counts hz]
        rfl
    · obtain ⟨a, b, hab, hbl, ha, hlo, hb, hhi, hc⟩ := Close_window h hpos hlen hnz
      exact ⟨_, hc, Close_window_fixed h hpos a b hab hbl hlen ha hb,
        window_sum h.Counts a b hab hlo hhi, rfl⟩

/-- Witness of C19: pruning `[0, 0, 5, 3, 0]` to `[5, 3]` keeps the sum 8,
and a second `Close` changes nothing. -/
theorem Close_idempotent_sum_witness :
    Close ⟨[0, ms, 2 * ms, 3 * ms, 4 * ms, 5 * ms], [0, 0, 5, 3, 0], 8, 2⟩
      = .ok ⟨[2 * ms, 3 * ms], [5, 3], 8, 2⟩ ∧
    Close ⟨[2 * ms, 3 * ms], [5, 3], 8, 2⟩ = .ok ⟨[2 * ms, 3 * ms], [5, 3], 8, 2⟩ ∧
    ∃ h1, Close ⟨[0, ms, 2 * ms, 3 * ms, 4 * ms, 5 * ms], [0, 0, 5, 3, 0], 8, 2⟩ = .ok h1 ∧
      Close h1 = .ok h1 ∧ h1.Counts.sum = [0, 0, 5, 3, 0].sum ∧ h1.Total = 8 :=
  ⟨by decide, by decide,
    Close_idempotent_sum ⟨[0, ms, 2 * ms, 3 * ms, 4 * ms, 5 * ms], [0, 0, 5, 3, 0], 8, 2⟩
      (by decide)⟩

/-! ## `Add` on growing histograms: termination and well-formedness -/

theorem mulDuration_zero (e : Nat) : mulDuration e 0 = 0 := by
  unfold mulDuration
  rw [mul_zero]
  decide

/-- When the last boundary is zero, every boundary `makeBucket` appends is
zero again and the loop never returns. -/
theorem makeBucketLoop_zero_last (x : Int) :
    ∀ (fuel : Nat) (h : Histogram) (pre : List Int), h.Buckets = pre ++ [0] →
      makeBucketLoop fuel h.Buckets.length h x = .error .outOfFuel := by
  intro fuel
  induction fuel with
  | zero => intro h pre _; rfl
  | succ fuel ih =>
    intro h pre hb
    rw [makeBucketLoop_step fuel h x pre 0 hb, mulDuration_zero, if_neg (by omega)]
    have := ih { h with Buckets := h.Buckets ++ [0] } h.Buckets rfl
    rw [List.length_append, List.length_singleton] at this
    exact this

theorem Add_zero_boundary (fuel g : Nat) (x : Int) (hg : 0 < g) :
    Add fuel ⟨[0], [], 0, g⟩ x = .error .outOfFuel := by
  have hs : getBucketScan [0] x (([0] : List Int).length - 1) 0 = none := rfl
  have hget : getBucket fuel ⟨[0], [], 0, g⟩ x = .error .outOfFuel := by
    rw [getBucket_of_scan_none fuel ⟨[0], [], 0, g⟩ x hs, if_pos hg]
    exact makeBucketLoop_zero_last x fuel ⟨[0], [], 0, g⟩ [] rfl
  unfold Add
  rw [hget]

/-- On the initial boundary list `[0]` with growth factor 2 the call `Add`
of a `5ms` sample returns for no amount of fuel (every appended boundary is
`2 * 0 = 0`). -/
theorem Add_zero_boundary_counterexample :
    ¬ ∃ (fuel : Nat) (h2 : Histogram), Add fuel ⟨[0], [], 0, 2⟩ (5 * ms) = .ok h2 := by
  rintro ⟨fuel, h2, hadd⟩
  rw [Add_zero_boundary fuel 2 (5 * ms) (by decide)] at hadd
  cases hadd

/-- The result of `Add` once `getBucket` has returned a valid index. -/
theorem Add_result (fuel : Nat) (h h1 : Histogram) (lat : Int) (i : Nat)
    (hg : getBucket fuel h lat = .ok (i, h1)) (hi : i < h1.Buckets.length) :
    ∃ h2, Add fuel h lat = .ok h2 ∧ h2.Buckets = h1.Buckets ∧ h2.Total = h1.Total + 1 ∧
      h2.Exponent = h1.Exponent ∧
      h2.Counts.getD i 0 = h1.Counts.getD i 0 + 1 ∧
      h2.Counts.length = max h1.Counts.length h1.Buckets.length := by
  have hp : i < (padCounts h1.Counts h1.Buckets.length).length := by
    rw [padCounts_length]; omega
  refine ⟨_, Add_of_getBucket fuel h h1 lat i hg hp, rfl, rfl, rfl, ?_, ?_⟩
  · exact getD_set_self _ _ _ hp
  · show ((padCounts h1.Counts h1.Buckets.length).set i _).length = _
    rw [List.length_set, padCounts_length]

/-- Growth, as `getBucket` performs it when the latency is at or beyond a
positive last boundary and fits no interval: the number of boundaries
appended, the histogram returned and the bucket found. -/
theorem getBucket_grow (h : Histogram) (x L : Int)
    (hg : 2 ≤ h.Exponent) (hlast : h.Buckets.getLast? = some L) (hL : 0 < L) (hx : L ≤ x)
    (hno : ∀ i, ¬ fits h.Buckets x i)
    (hexact : ∀ k : Nat, (∀ j, j < k → (h.Exponent : Int) ^ j * L ≤ x) →
      (h.Exponent : Int) ^ k * L < int64Bound) :
    ∃ k : Nat, ∀ fuel, k + 1 ≤ fuel →
      getBucket fuel h x = .ok (h.Buckets.length + k - 1,
        { h with Buckets := h.Buckets ++
            (List.range (k + 1)).map (fun j => (h.Exponent : Int) ^ (j + 1) * L) }) ∧
      fits (h.Buckets ++ (List.range (k + 1)).map (fun j => (h.Exponent : Int) ^ (j + 1) * L)) x
        (h.Buckets.length + k - 1) := by
  have hg2 : (2 : Int) ≤ (h.Exponent : Int) := by exact_mod_cast hg
  obtain ⟨k, hlow, hup⟩ := exists_growth_steps (h.Exponent : Int) x L hg2 hL hx
  obtain ⟨pre, hb⟩ := List.getLast?_eq_some_iff.1 hlast
  have hne : h.Buckets ≠ [] := by rw [hb]; simp
  refine ⟨k, ?_⟩
  intro fuel hfuel
  have hrun := makeBucketLoop_grows x k h L pre fuel hb hL (by omega) hlow hup
    (hexact (k + 1) (fun j hj => hlow j (by omega))) hfuel
  have hget : getBucket fuel h x = .ok (h.Buckets.length + k - 1,
      { h with Buckets := h.Buckets ++
          (List.range (k + 1)).map (fun j => (h.Exponent : Int) ^ (j + 1) * L) }) := by
    rw [getBucket_of_scan_none fuel h x ((scan_none_iff _ _).2 hno), if_pos (by omega)]
    unfold makeBucket
    rw [hrun]
  refine ⟨hget, ?_⟩
  rcases makeBucketLoop_sound x fuel h hne with h0 | ⟨j, t, _, h2, _, h4⟩
  · rw [hrun] at h0; cases h0
  · rw [hrun] at h2
    injection h2 with h2
    injection h2 with hj hh
    have ht : h.Buckets ++ (List.range (k + 1)).map (fun j => (h.Exponent : Int) ^ (j + 1) * L)
        = h.Buckets ++ t := congrArg Histogram.Buckets hh
    rw [ht, hj]
    exact h4

/-- From the initial boundary list `[0, L]`, `L > 0` (`report` uses
`[0, 1ms]`), with no counts and a growth factor `g >= 2`, `Add` of a sample of
non-negative latency returns for every large enough fuel, provided no
boundary the loop computes leaves the `int64` range; afterwards `Total = 1`
and the sample is counted, once, in a bucket `i` with
`Buckets[i] <= latency < Buckets[i+1]`. -/
theorem Add_first_sample (L x : Int) (g : Nat) (hL : 0 < L) (hg : 2 ≤ g) (hx : 0 ≤ x)
    (hexact : ∀ k : Nat, (∀ j, j < k → (g : Int) ^ j * L ≤ x) → (g : Int) ^ k * L < int64Bound) :
    ∃ fuel0, ∀ fuel, fuel0 ≤ fuel →
      ∃ h2 i, Add fuel ⟨[0, L], [], 0, g⟩ x = .ok h2 ∧ h2.Total = 1 ∧
        fits h2.Buckets x i ∧ h2.Counts.getD i 0 = 1 := by
  by_cases hlt : x < L
  · refine ⟨0, fun fuel _ => ?_⟩
    have hf : fits [0, L] x 0 := ⟨by simp, hx, hlt⟩
    obtain ⟨j, hs, hfj, _, _⟩ := scan_of_fits [0, L] x 0 hf
    have hget := getBucket_of_scan_some fuel ⟨[0, L], [], 0, g⟩ x j hs
    obtain ⟨h2, hadd, hb, ht, _, hc, _⟩ :=
      Add_result fuel ⟨[0, L], [], 0, g⟩ ⟨[0, L], [], 0, g⟩ x j hget
        (by have := hfj.1; show j < ([0, L] : List Int).length; omega)
    refine ⟨h2, j, hadd, ht, ?_, hc⟩
    rw [hb]; exact hfj
  · have hno : ∀ i, ¬ fits [0, L] x i := by
      intro i hf
      obtain ⟨h1, _, h3⟩ := hf
      have hi : i = 0 := by simp at h1; omega
      subst hi
      exact hlt h3
    obtain ⟨k, hk⟩ := getBucket_grow ⟨[0, L], [], 0, g⟩ x L hg rfl hL (by omega) hno hexact
    refine ⟨k + 1, fun fuel hfuel => ?_⟩
    obtain ⟨hget, hfit⟩ := hk fuel hfuel
    dsimp only at hget hfit
    have hidx : ([0, L] : List Int).length + k - 1
        < ([0, L] ++ (List.range (k + 1)).map (fun j => (g : Int) ^ (j + 1) * L)).length := by
      rw [List.length_append, List.length_map, List.length_range]
      omega
    obtain ⟨h2, hadd, hb, ht, _, hc, _⟩ := Add_result fuel _ _ x _ hget hidx
    refine ⟨h2, _, hadd, ht, ?_, hc⟩
    rw [hb]; exact hfit

/-- The first sample on the initial boundaries `[0, 1ms]` with factor 2: a
`5ms` sample. -/
theorem Add_first_sample_witness :
    Add 3 ⟨[0, ms], [], 0, 2⟩ (5 * ms)
      = .ok ⟨[0, ms, 2 * ms, 4 * ms, 8 * ms], [0, 0, 0, 1, 0], 1, 2⟩ ∧
    ∃ fuel0, ∀ fuel, fuel0 ≤ fuel →
      ∃ h2 i, Add fuel ⟨[0, ms], [], 0, 2⟩ (5 * ms) = .ok h2 ∧ h2.Total = 1 ∧
        fits h2.Buckets (5 * ms) i ∧ h2.Counts.getD i 0 = 1 :=
  ⟨by decide,
    Add_first_sample ms (5 * ms) 2 (by decide) (by decide) (by decide) growth_in_range_example⟩

theorem growth_list_wf (g L : Int) (k : Nat) (hg : 2 ≤ g) (hL : 0 < L) :
    ((List.range k).map (fun j => g ^ (j + 1) * L)).Pairwise (· < ·) ∧
    ∀ b ∈ (List.range k).map (fun j => g ^ (j + 1) * L), L < b := by
  constructor
  · rw [List.pairwise_map]
    refine List.Pairwise.imp ?_ (List.pairwise_lt_range k)
    intro a b hab
    have hp : g ^ (a + 1) < g ^ (b + 1) := pow_lt_pow_right₀ (by omega) (by omega)
    exact mul_lt_mul_of_pos_right hp hL
  · intro b hb
    rw [List.mem_map] at hb
    obtain ⟨j, _, rfl⟩ := hb
    have h1 : (1 : Int) < g ^ (j + 1) := one_lt_pow₀ (by omega) (by omega)
    nlinarith

theorem le_last_of_mem (bs pre : List Int) (L : Int) (hb : bs = pre ++ [L])
    (hs : bs.Pairwise (· < ·)) : ∀ a ∈ bs, a ≤ L := by
  intro a ha
  subst hb
  rw [List.pairwise_append] at hs
  rw [List.mem_append] at ha
  rcases ha with ha | ha
  · exact le_of_lt (hs.2.2 a ha L (by simp))
  · simp at ha
    omega

/-- C18: growth factor 0 or `>= 2`, boundaries non-empty, non-negative and
strictly increasing with last boundary `L > 0`, `len(Counts) <= len(Buckets)`,
a latency `>= Buckets[0]`, and no boundary the loop computes leaves the
`int64` range.  Then `Add` returns for every large enough fuel, and
afterwards the boundaries are again non-empty, non-negative and strictly
increasing, the old boundaries are a prefix of the new ones, and
`len(Counts) = len(Buckets)`. -/
theorem Add_preserves_wellformed (h : Histogram) (x L : Int)
    (hg : h.Exponent = 0 ∨ 2 ≤ h.Exponent)
    (hlast : h.Buckets.getLast? = some L) (hL : 0 < L)
    (hnn : ∀ b ∈ h.Buckets, 0 ≤ b) (hs : h.Buckets.Pairwise (· < ·))
    (hlen : h.Counts.length ≤ h.Buckets.length) (hx : h.Buckets.getD 0 0 ≤ x)
    (hexact : ∀ k : Nat, (∀ j, j < k → (h.Exponent : Int) ^ j * L ≤ x) →
      (h.Exponent : Int) ^ k * L < int64Bound) :
    ∃ fuel0, ∀ fuel, fuel0 ≤ fuel →
      ∃ h2, Add fuel h x = .ok h2 ∧ h2.Buckets ≠ [] ∧ (∀ b ∈ h2.Buckets, 0 ≤ b) ∧
        h2.Buckets.Pairwise (· < ·) ∧ (∃ t, h2.Buckets = h.Buckets ++ t) ∧
        h2.Counts.length = h2.Buckets.length := by
  obtain ⟨pre, hb⟩ := List.getLast?_eq_some_iff.1 hlast
  have hne : h.Buckets ≠ [] := by rw [hb]; simp
  have hpos : 0 < h.Buckets.length := List.length_pos.2 hne
  -- the case in which `getBucket` returns the histogram unchanged
  have hsame : ∀ fuel j, getBucket fuel h x = .ok (j, h) → j < h.Buckets.length →
      ∃ h2, Add fuel h x = .ok h2 ∧ h2.Buckets ≠ [] ∧ (∀ b ∈ h2.Buckets, 0 ≤ b) ∧
        h2.Buckets.Pairwise (· < ·) ∧ (∃ t, h2.Buckets = h.Buckets ++ t) ∧
        h2.Counts.length = h2.Buckets.length := by
    intro fuel j hget hj
    obtain ⟨h2, hadd, hbk, _, _, _, hcl⟩ := Add_result fuel h h x j hget hj
    refine ⟨h2, hadd, by rw [hbk]; exact hne, by rw [hbk]; exact hnn, by rw [hbk]; exact hs,
      ⟨[], by rw [hbk, List.append_nil]⟩, ?_⟩
    rw [hcl, hbk]; omega
  by_cases hfit : ∃ i, fits h.Buckets x i
  · obtain ⟨i, hi⟩ := hfit
    obtain ⟨j, hsc, hfj, _, _⟩ := scan_of_fits h.Buckets x i hi
    refine ⟨0, fun fuel _ => ?_⟩
    exact hsame fuel j (getBucket_of_scan_some fuel h x j hsc) (by have := hfj.1; omega)
  · have hno : ∀ i, ¬ fits h.Buckets x i := fun i hi => hfit ⟨i, hi⟩
    rcases hg with h0 | h2
    · refine ⟨0, fun fuel _ => ?_⟩
      refine hsame fuel (h.Buckets.length - 1) ?_ (by omega)
      rw [getBucket_of_scan_none fuel h x ((scan_none_iff _ _).2 hno), if_neg (by omega)]
    · have hLx : L ≤ x := by
        have hlastD : h.Buckets.getD (h.Buckets.length - 1) 0 = L := by
          rw [hb]; simp
        rcases outside_of_not_fits h.Buckets x hno with ho | ho
        · rw [hlastD] at ho; exact ho
        · omega
      obtain ⟨k, hk⟩ := getBucket_grow h x L h2 hlast hL hLx hno hexact
      refine ⟨k + 1, fun fuel hfuel => ?_⟩
      obtain ⟨hget, _⟩ := hk fuel hfuel
      have hg2 : (2 : Int) ≤ (h.Exponent : Int) := by exact_mod_cast h2
      obtain ⟨w1, w2⟩ := growth_list_wf (h.Exponent : Int) L (k + 1) hg2 hL
      have hidx : h.Buckets.length + k - 1
          < (h.Buckets ++ (List.range (k + 1)).map
              (fun j => (h.Exponent : Int) ^ (j + 1) * L)).length := by
        rw [List.length_append, List.length_map, List.length_range]
        omega
      obtain ⟨r, hadd, hbk, _, _, _, hcl⟩ := Add_result fuel h _ x _ hget hidx
      dsimp only at hbk hcl
      refine ⟨r, hadd, ?_, ?_, ?_, ⟨_, hbk⟩, ?_⟩
      · rw [hbk]
        intro he
        exact hne (List.append_eq_nil.1 he).1
      · rw [hbk]
        intro b hbm
        rw [List.mem_append] at hbm
        rcases hbm with hbm | hbm
        · exact hnn b hbm
        · have := w2 b hbm; omega
      · rw [hbk, List.pairwise_append]
        refine ⟨hs, w1, ?_⟩
        intro a ha b hbm
        have h1 := le_last_of_mem h.Buckets pre L hb hs a ha
        have h3 := w2 b hbm
        omega
      · rw [hcl, hbk, List.length_append]
        omega

/-- Witness of C18 with growth: boundaries `[0, 1ms]`, factor 2, latency
`5ms`. -/
theorem Add_preserves_wellformed_witness :
    Add 3 ⟨[0, ms], [], 0, 2⟩ (5 * ms)
      = .ok ⟨[0, ms, 2 * ms, 4 * ms, 8 * ms], [0, 0, 0, 1, 0], 1, 2⟩ ∧
    ∃ fuel0, ∀ fuel, fuel0 ≤ fuel →
      ∃ h2, Add fuel ⟨[0, ms], [], 0, 2⟩ (5 * ms) = .ok h2 ∧ h2.Buckets ≠ [] ∧
        (∀ b ∈ h2.Buckets, 0 ≤ b) ∧ h2.Buckets.Pairwise (· < ·) ∧
        (∃ t, h2.Buckets = [0, ms] ++ t) ∧ h2.Counts.length = h2.Buckets.length :=
  ⟨by decide,
    Add_preserves_wellformed ⟨[0, ms], [], 0, 2⟩ (5 * ms) ms (Or.inr (by decide)) (by decide)
      (by decide) (by decide) (by decide) (by decide) (by decide) growth_in_range_example⟩

/-! ## Runs of the decode loop -/

theorem runLoop_append {σ : Type} (R : Reporter σ) (every : Int) (dec : Nat → Decoded)
    (finalErr : Option Err) (rest : List Event) :
    ∀ (pre : List Event) (s0 s1 : LoopState σ), loopPrefix R every dec s0 pre = some s1 →
      runLoop R every dec finalErr s0 (pre ++ rest) = runLoop R every dec finalErr s1 rest := by
  intro pre
  induction pre with
  | nil =>
    intro s0 s1 h
    simp only [loopPrefix] at h
    injection h with h
    subst h
    rfl
  | cons ev evs ih =>
    intro s0 s1 h
    simp only [loopPrefix] at h
    simp only [List.cons_append, runLoop]
    cases hstep : loopStep R every dec s0 ev with
    | next s => rw [hstep] at h; exact ih s s1 h
    | leave s => rw [hstep] at h; cases h
    | ret e s => rw [hstep] at h; cases h
    | fault f => rw [hstep] at h; cases h

theorem tickBranch_next {σ : Type} (R : Reporter σ) (s s1 : LoopState σ) (ev : Event)
    (h : tickBranch R s ev = .next s1) :
    (R.closer = none ∧
      s1 = { agg := s.agg, decoded := s.decoded,
             log := s.log ++ [.cleared, .reported s.agg] }) ∨
    (∃ close a, R.closer = some close ∧ close s.agg = .ok a ∧
      s1 = { agg := a, decoded := s.decoded,
             log := s.log ++ [.cleared, .closed, .reported a] }) := by
  unfold tickBranch writeReport at h
  cases hce : ev.clearErr with
  | some e => simp only [hce] at h; cases h
  | none =>
    simp only [hce] at h
    cases hcl : R.closer with
    | none =>
      simp only [hcl] at h
      cases hre : ev.reportErr with
      | none =>
        simp only [hre] at h
        injection h with h
        left
        refine ⟨rfl, ?_⟩
        rw [← h]
        simp
      | some e => simp only [hre] at h; cases h
    | some close =>
      simp only [hcl] at h
      cases hc : close s.agg with
      | error f => simp only [hc] at h; cases h
      | ok a =>
        simp only [hc] at h
        cases hre : ev.reportErr with
        | none =>
          simp only [hre] at h
          injection h with h
          right
          refine ⟨close, a, rfl, hc, ?_⟩
          rw [← h]
          simp
        | some e => simp only [hre] at h; cases h

theorem defaultBranch_next {σ : Type} (R : Reporter σ) (dec : Nat → Decoded)
    (s s1 : LoopState σ) (h : defaultBranch R dec s = .next s1) :
    ∃ lat a, dec s.decoded = .result lat ∧ R.add s.agg lat = .ok a ∧
      s1 = { agg := a, decoded := s.decoded + 1, log := s.log ++ [.added lat] } := by
  unfold defaultBranch at h
  cases hd : dec s.decoded with
  | eof => simp only [hd] at h; cases h
  | failure e => simp only [hd] at h; cases h
  | result lat =>
    simp only [hd] at h
    cases ha : R.add s.agg lat with
    | error f => simp only [ha] at h; cases h
    | ok a =>
      simp only [ha] at h
      injection h with h
      exact ⟨lat, a, rfl, ha, h.symm⟩

theorem selectCase_tick_every (every : Int) (ev : Event)
    (h : selectCase every ev = Case.tick) : 0 < every := by
  unfold selectCase at h
  by_contra hc
  have hd : decide (every > 0) = false := by simp; omega
  simp [hd] at h
  split at h <;> cases h

theorem addedLats_append {σ : Type} (l1 l2 : List (Action σ)) :
    addedLats (l1 ++ l2) = addedLats l1 ++ addedLats l2 := by
  induction l1 with
  | nil => rfl
  | cons x l1 ih =>
    cases x <;> simp [addedLats, ih]

theorem addMany_append {σ : Type} (R : Reporter σ) (l1 l2 : List Int) :
    ∀ (a b : σ), addMany R a l1 = .ok b → addMany R a (l1 ++ l2) = addMany R b l2 := by
  induction l1 with
  | nil =>
    intro a b h
    simp only [addMany] at h
    injection h with h
    subst h
    rfl
  | cons x l1 ih =>
    intro a b h
    simp only [addMany, List.cons_append] at h ⊢
    cases hx : R.add a x with
    | error f => rw [hx] at h; cases h
    | ok a1 => rw [hx] at h; simp only []; exact ih a1 b h

theorem replay_append {σ : Type} (R : Reporter σ) (l1 l2 : List (Action σ)) :
    ∀ (a b : σ), replay R a l1 = .ok b → replay R a (l1 ++ l2) = replay R b l2 := by
  induction l1 with
  | nil =>
    intro a b h
    simp only [replay] at h
    injection h with h
    subst h
    rfl
  | cons x l1 ih =>
    intro a b h
    cases x with
    | cleared => simp only [replay, List.cons_append] at h ⊢; exact ih a b h
    | reported r => simp only [replay, List.cons_append] at h ⊢; exact ih a b h
    | added lat =>
      simp only [replay, List.cons_append] at h ⊢
      cases hx : R.add a lat with
      | error f => rw [hx] at h; cases h
      | ok a1 => rw [hx] at h; simp only []; exact ih a1 b h
    | closed =>
      simp only [replay, List.cons_append] at h ⊢
      cases hcl : R.closer with
      | none => rw [hcl] at h; simp only []; exact ih a b h
      | some close =>
        rw [hcl] at h
        simp only [] at h ⊢
        cases hx : close a with
        | error f => rw [hx] at h; cases h
        | ok a1 => rw [hx] at h; simp only []; exact ih a1 b h

theorem getD_append_singleton (l : List Int) (x : Int) (n : Nat) (hn : n ≤ l.length) :
    (l ++ [x]).getD n 0 = if n = l.length then x else l.getD n 0 := by
  rw [List.getD_eq_getElem?_getD, List.getD_eq_getElem?_getD]
  by_cases h : n = l.length
  · rw [if_pos h, h, List.getElem?_append_right (le_refl _)]
    simp
  · rw [if_neg h, List.getElem?_append_left (by omega)]

/-- One iteration that lets the loop go on keeps the relation between the
loop state and its log: the log holds one `Add` per decoded result, of the
results decoded so far in order, and the report state is the one the logged
`Add` and `Close` calls produce (the logged `Add` calls alone when the report
has no `Close` or no tick can fire). -/
theorem loopStep_invariant {σ : Type} (R : Reporter σ) (every : Int) (dec : Nat → Decoded)
    (a0 : σ) (s s1 : LoopState σ) (ev : Event) (hstep : loopStep R every dec s ev = .next s1)
    (h1 : (addedLats s.log).length = s.decoded)
    (h2 : ∀ n, n < s.decoded → dec n = .result ((addedLats s.log).getD n 0))
    (h3 : replay R a0 s.log = .ok s.agg)
    (h4 : (R.closer = none ∨ every ≤ 0) → addMany R a0 (addedLats s.log) = .ok s.agg) :
    (addedLats s1.log).length = s1.decoded ∧
    (∀ n, n < s1.decoded → dec n = .result ((addedLats s1.log).getD n 0)) ∧
    replay R a0 s1.log = .ok s1.agg ∧
    ((R.closer = none ∨ every ≤ 0) → addMany R a0 (addedLats s1.log) = .ok s1.agg) := by
  unfold loopStep at hstep
  cases hsel : selectCase every ev with
  | sig => rw [hsel] at hstep; cases hstep
  | tick =>
    rw [hsel] at hstep
    simp only [] at hstep
    have hev := selectCase_tick_every every ev hsel
    rcases tickBranch_next R s s1 ev hstep with ⟨hcl, rfl⟩ | ⟨close, a, hcl, hca, rfl⟩
    · have hal : addedLats (s.log ++ [Action.cleared, Action.reported s.agg]) = addedLats s.log := by
        rw [addedLats_append]; simp [addedLats]
      refine ⟨by rw [hal]; exact h1, by rw [hal]; exact h2, ?_, by rw [hal]; exact h4⟩
      show replay R a0 (s.log ++ [Action.cleared, Action.reported s.agg]) = .ok s.agg
      rw [replay_append R _ _ a0 s.agg h3]
      rfl
    · have hal : addedLats (s.log ++ [Action.cleared, Action.closed, Action.reported a])
          = addedLats s.log := by
        rw [addedLats_append]; simp [addedLats]
      refine ⟨by rw [hal]; exact h1, by rw [hal]; exact h2, ?_, ?_⟩
      · show replay R a0 (s.log ++ [Action.cleared, Action.closed, Action.reported a]) = .ok a
        rw [replay_append R _ _ a0 s.agg h3]
        simp only [replay, hcl, hca]
      · intro hc
        rcases hc with hc | hc
        · rw [hcl] at hc; cases hc
        · omega
  | default =>
    rw [hsel] at hstep
    simp only [] at hstep
    obtain ⟨lat, a, hd, ha, rfl⟩ := defaultBranch_next R dec s s1 hstep
    have hal : addedLats (s.log ++ [Action.added lat]) = addedLats s.log ++ [lat] := by
      rw [addedLats_append]; rfl
    refine ⟨?_, ?_, ?_, ?_⟩
    · rw [hal, List.length_append, h1]; rfl
    · intro n hn
      have hn1 : n < s.decoded + 1 := hn
      rw [hal, getD_append_singleton _ _ _ (by omega)]
      by_cases hnd : n = s.decoded
      · rw [if_pos (by omega), hnd]; exact hd
      · rw [if_neg (by omega)]; exact h2 n (by omega)
    · show replay R a0 (s.log ++ [Action.added lat]) = .ok a
      rw [replay_append R _ _ a0 s.agg h3]
      simp only [replay, ha]
    · intro hc
      show addMany R a0 (addedLats (s.log ++ [Action.added lat])) = .ok a
      rw [hal, addMany_append R _ _ a0 s.agg (h4 hc)]
      simp only [addMany, ha]

theorem loopPrefix_invariant {σ : Type} (R : Reporter σ) (every : Int) (dec : Nat → Decoded)
    (a0 : σ) :
    ∀ (pre : List Event) (s s1 : LoopState σ), loopPrefix R every dec s pre = some s1 →
      (addedLats s.log).length = s.decoded →
      (∀ n, n < s.decoded → dec n = .result ((addedLats s.log).getD n 0)) →
      replay R a0 s.log = .ok s.agg →
      ((R.closer = none ∨ every ≤ 0) → addMany R a0 (addedLats s.log) = .ok s.agg) →
      (addedLats s1.log).length = s1.decoded ∧
      (∀ n, n < s1.decoded → dec n = .result ((addedLats s1.log).getD n 0)) ∧
      replay R a0 s1.log = .ok s1.agg ∧
      ((R.closer = none ∨ every ≤ 0) → addMany R a0 (addedLats s1.log) = .ok s1.agg) := by
  intro pre
  induction pre with
  | nil =>
    intro s s1 h h1 h2 h3 h4
    simp only [loopPrefix] at h
    injection h with h
    subst h
    exact ⟨h1, h2, h3, h4⟩
  | cons ev evs ih =>
    intro s s1 h h1 h2 h3 h4
    simp only [loopPrefix] at h
    cases hstep : loopStep R every dec s ev with
    | next s2 =>
      rw [hstep] at h
      obtain ⟨i1, i2, i3, i4⟩ := loopStep_invariant R every dec a0 s s2 ev hstep h1 h2 h3 h4
      exact ih s2 s1 h i1 i2 i3 i4
    | leave s2 => rw [hstep] at h; cases h
    | ret e s2 => rw [hstep] at h; cases h
    | fault f => rw [hstep] at h; cases h

theorem loopStep_leave {σ : Type} (R : Reporter σ) (every : Int) (dec : Nat → Decoded)
    (s : LoopState σ) (ev : Event)
    (h : selectCase every ev = Case.sig ∨
      (selectCase every ev = Case.default ∧ dec s.decoded = Decoded.eof)) :
    loopStep R every dec s ev = .leave s := by
  unfold loopStep
  rcases h with h | ⟨h, hd⟩
  · rw [h]
  · rw [h]
    simp only [defaultBranch, hd]

/-- Finalization.  A run from the initial loop state whose loop goes on for
the iterations `pre`, reaching state `s1` with `k` results decoded, and is
then left through the stop signal or through end-of-stream.  The log of `s1`
holds exactly `k` `Add` calls, of the first `k` results in order, and the
report state of `s1` is what the logged `Add` and tick-time `Close` calls
produce from the initial one; it is what the logged `Add` calls alone
produce when the report has no `Close` or no tick can fire.  Finalization
calls `Close` when the report has one and then writes one `Report`, of the
state so obtained, as the last action; the run returns the error of that
`Report` (`none` when the write succeeds). -/
theorem runLoop_final {σ : Type} (R : Reporter σ) (every : Int) (dec : Nat → Decoded)
    (finalErr : Option Err) (s0 s1 : LoopState σ) (pre post : List Event) (ev : Event) (k : Nat)
    (hd0 : s0.decoded = 0) (hl0 : s0.log = [])
    (hpre : loopPrefix R every dec s0 pre = some s1)
    (hleave : selectCase every ev = Case.sig ∨
      (selectCase every ev = Case.default ∧ dec s1.decoded = Decoded.eof))
    (hk : s1.decoded = k) :
    (addedLats s1.log).length = k ∧
    (∀ n, n < k → dec n = .result ((addedLats s1.log).getD n 0)) ∧
    replay R s0.agg s1.log = .ok s1.agg ∧
    ((R.closer = none ∨ every ≤ 0) → addMany R s0.agg (addedLats s1.log) = .ok s1.agg) ∧
    (R.closer = none →
      runLoop R every dec finalErr s0 (pre ++ ev :: post)
        = .returned finalErr
            { agg := s1.agg, decoded := k, log := s1.log ++ [.reported s1.agg] }) ∧
    (∀ close a, R.closer = some close → close s1.agg = .ok a →
      runLoop R every dec finalErr s0 (pre ++ ev :: post)
        = .returned finalErr
            { agg := a, decoded := k, log := s1.log ++ [.closed, .reported a] }) ∧
    (∀ close f, R.closer = some close → close s1.agg = .error f →
      runLoop R every dec finalErr s0 (pre ++ ev :: post) = .fault f) := by
  have hinv := loopPrefix_invariant R every dec s0.agg pre s0 s1 hpre
    (by rw [hl0, hd0]; rfl) (by intro n hn; omega) (by rw [hl0]; rfl)
    (by intro _; rw [hl0]; rfl)
  obtain ⟨i1, i2, i3, i4⟩ := hinv
  rw [hk] at i1 i2
  have hrun : runLoop R every dec finalErr s0 (pre ++ ev :: post)
      = match writeReport R s1 finalErr with
        | .error f => .fault f
        | .ok (s2, err) => .returned err s2 := by
    rw [runLoop_append R every dec finalErr (ev :: post) pre s0 s1 hpre]
    simp only [runLoop, loopStep_leave R every dec s1 ev hleave]
  refine ⟨i1, i2, i3, i4, ?_, ?_, ?_⟩
  · intro hcl
    rw [hrun]
    simp only [writeReport, hcl, hk]
  · intro close a hcl hca
    rw [hrun]
    simp only [writeReport, hcl, hca, hk]
  · intro close f hcl hca
    rw [hrun]
    simp only [writeReport, hcl, hca]

/-- Finalization without ticks: an auto-binned histogram report and an
unbounded stream of `1ms` results; three results are decoded, then the stop
signal is serviced.  The final report is that of the three results and the
error is nil. -/
theorem runLoop_final_witness :
    runLoop (histReporter 10) 0 (fun _ => Decoded.result ms) none
        ⟨⟨[0, ms], [], 0, 2⟩, 0, []⟩
        ([⟨false, false, false, none, none⟩, ⟨false, false, false, none, none⟩,
          ⟨false, false, false, none, none⟩] ++ ⟨true, false, false, none, none⟩ :: [])
      = .returned none
          { agg := ⟨[ms], [3], 3, 2⟩, decoded := 3,
            log := [.added ms, .added ms, .added ms] ++
              [.closed, .reported ⟨[ms], [3], 3, 2⟩] } :=
  (runLoop_final (histReporter 10) 0 (fun _ => Decoded.result ms) none
    ⟨⟨[0, ms], [], 0, 2⟩, 0, []⟩
    ⟨⟨[0, ms, 2 * ms], [0, 3, 0], 3, 2⟩, 3, [.added ms, .added ms, .added ms]⟩
    [⟨false, false, false, none, none⟩, ⟨false, false, false, none, none⟩,
      ⟨false, false, false, none, none⟩] [] ⟨true, false, false, none, none⟩ 3
    rfl rfl (by decide) (Or.inl (by decide)) rfl).2.2.2.2.2.1 Close ⟨[ms], [3], 3, 2⟩ rfl
    (by decide)

/-- C12: a run whose loop goes on for the iterations `pre`, reaching state
`s1`, and whose next iteration takes the `default` case with `Decode`
returning an error other than end-of-stream.  The run returns exactly that
error, in the state `s1`: after the failing `Decode` the log gains no `Add`,
no `Close` and no `Report`, and the report state is unchanged. -/
theorem runLoop_decode_error {σ : Type} (R : Reporter σ) (every : Int) (dec : Nat → Decoded)
    (finalErr : Option Err) (s0 s1 : LoopState σ) (pre post : List Event) (ev : Event) (e : Err)
    (hpre : loopPrefix R every dec s0 pre = some s1)
    (hsel : selectCase every ev = Case.default)
    (hdec : dec s1.decoded = Decoded.failure e) :
    loopStep R every dec s1 ev = .ret e s1 ∧
    runLoop R every dec finalErr s0 (pre ++ ev :: post) = .returned (some e) s1 := by
  have hstep : loopStep R every dec s1 ev = .ret e s1 := by
    unfold loopStep
    rw [hsel]
    simp only [defaultBranch, hdec]
  refine ⟨hstep, ?_⟩
  rw [runLoop_append R every dec finalErr (ev :: post) pre s0 s1 hpre]
  simp only [runLoop, hstep]

/-- Witness of C12: two results are decoded and added, the third `Decode`
fails; the run returns that error and the log ends with the second `Add`. -/
theorem runLoop_decode_error_witness :
    runLoop (histReporter 10) 0
        (fun n => if n < 2 then Decoded.result ms else Decoded.failure "bad record") none
        ⟨⟨[0, ms], [], 0, 2⟩, 0, []⟩
        ([⟨false, false, false, none, none⟩, ⟨false, false, false, none, none⟩] ++
          ⟨false, false, false, none, none⟩ :: [⟨true, false, false, none, none⟩])
      = .returned (some "bad record")
          ⟨⟨[0, ms, 2 * ms], [0, 2, 0], 2, 2⟩, 2, [.added ms, .added ms]⟩ :=
  (runLoop_decode_error (histReporter 10) 0
    (fun n => if n < 2 then Decoded.result ms else Decoded.failure "bad record") none
    ⟨⟨[0, ms], [], 0, 2⟩, 0, []⟩
    ⟨⟨[0, ms, 2 * ms], [0, 2, 0], 2, 2⟩, 2, [.added ms, .added ms]⟩
    [⟨false, false, false, none, none⟩, ⟨false, false, false, none, none⟩]
    [⟨true, false, false, none, none⟩] ⟨false, false, false, none, none⟩ "bad record"
    (by decide) (by decide) (by decide)).2

/-! ## Parsing bucket lists -/

theorem unmarshalLoop_spec (parse : List Char → Option Int) (trim : List Char → List Char) :
    ∀ (toks : List (List Char)) (bs : List Int),
      ((unmarshalLoop parse trim bs toks).2 ≠ none ↔ ∃ t ∈ toks, parse (trim t) = none) ∧
      ((unmarshalLoop parse trim bs toks).2 = none →
        ∃ ds, (unmarshalLoop parse trim bs toks).1 = bs ++ ds ∧
          ds.map some = toks.map (fun t => parse (trim t))) := by
  intro toks
  induction toks with
  | nil =>
    intro bs
    simp [unmarshalLoop]
  | cons v vs ih =>
    intro bs
    cases hp : parse (trim v) with
    | none =>
      simp only [unmarshalLoop, hp]
      refine ⟨⟨fun _ => ⟨v, by simp, hp⟩, fun _ => by simp⟩, fun h => by simp at h⟩
    | some d =>
      simp only [unmarshalLoop, hp]
      obtain ⟨i1, i2⟩ := ih (bs ++ [d])
      constructor
      · rw [i1]
        constructor
        · rintro ⟨t, ht, hpt⟩
          exact ⟨t, List.mem_cons_of_mem _ ht, hpt⟩
        · rintro ⟨t, ht, hpt⟩
          rcases List.mem_cons.1 ht with h | h
          · rw [h, hp] at hpt; cases hpt
          · exact ⟨t, h, hpt⟩
      · intro h
        obtain ⟨ds, h1, h2⟩ := i2 h
        refine ⟨d :: ds, ?_, ?_⟩
        · rw [h1, List.append_assoc]; rfl
        · simp only [List.map_cons, hp, h2]

theorem splitComma_ne_nil (s : List Char) : splitComma s ≠ [] := by
  cases s with
  | nil => simp [splitComma]
  | cons c cs =>
    unfold splitComma
    split
    · simp
    · split <;> simp

/-- C13: `UnmarshalText`, with `parse` for `time.ParseDuration` and `trim`
for `strings.TrimSpace`, returns an error if and only if the input is shorter
than 2 bytes, does not start with `[`, does not end with `]`, or some
comma-separated piece of the interior fails to parse after trimming; when it
returns no error, the receiver has been extended by a non-empty list, the
parsed pieces in input order (on an empty receiver the result is that list);
and an empty interior is an error whenever the empty token is rejected. -/
theorem UnmarshalText_error_iff (parse : List Char → Option Int) (trim : List Char → List Char)
    (bs : List Int) (value : List Char) :
    ((UnmarshalText parse trim bs value).2 ≠ none ↔
      (value.length < 2 ∨ value.head? ≠ some '[' ∨ value.getLast? ≠ some ']' ∨
        ∃ t ∈ splitComma ((value.take (value.length - 1)).drop 1), parse (trim t) = none)) ∧
    ((UnmarshalText parse trim bs value).2 = none →
      ∃ ds, ds ≠ [] ∧ (UnmarshalText parse trim bs value).1 = bs ++ ds ∧
        ds.map some
          = (splitComma ((value.take (value.length - 1)).drop 1)).map (fun t => parse (trim t))) ∧
    (parse (trim []) = none → (value.take (value.length - 1)).drop 1 = [] →
      (UnmarshalText parse trim bs value).2 ≠ none) := by
  obtain ⟨l1, l2⟩ := unmarshalLoop_spec parse trim
    (splitComma ((value.take (value.length - 1)).drop 1)) bs
  have hne := splitComma_ne_nil ((value.take (value.length - 1)).drop 1)
  -- the result of the call when the brackets are there
  have hgood : ¬ (value.length < 2 ∨ value.head? ≠ some '[' ∨ value.getLast? ≠ some ']') →
      ((UnmarshalText parse trim bs value).2 ≠ none ↔
        ∃ t ∈ splitComma ((value.take (value.length - 1)).drop 1), parse (trim t) = none) ∧
      ((UnmarshalText parse trim bs value).2 = none →
        ∃ ds, ds ≠ [] ∧ (UnmarshalText parse trim bs value).1 = bs ++ ds ∧
          ds.map some = (splitComma ((value.take (value.length - 1)).drop 1)).map
            (fun t => parse (trim t))) := by
    intro hb
    unfold UnmarshalText
    rw [if_neg hb]
    cases hr : unmarshalLoop parse trim bs
        (splitComma ((value.take (value.length - 1)).drop 1)) with
    | mk bs1 err =>
      rw [hr] at l1 l2
      cases err with
      | some e =>
        simp only []
        exact ⟨⟨fun _ => l1.1 (by simp), fun _ => by simp⟩, fun h => by simp at h⟩
      | none =>
        obtain ⟨ds, h1, h2⟩ := l2 rfl
        simp only [] at h1
        have hds : ds ≠ [] := by
          intro hd
          rw [hd] at h2
          exact hne (List.map_eq_nil_iff.1 h2.symm)
        have hlen : ¬ bs1.length = 0 := by
          rw [h1, List.length_append]
          have := List.length_pos.2 hds
          omega
        simp only [hlen, if_false]
        refine ⟨⟨fun h => absurd rfl h, fun h => absurd (l1.2 h) (by simp)⟩, fun _ => ?_⟩
        exact ⟨ds, hds, h1, h2⟩
  by_cases hb : value.length < 2 ∨ value.head? ≠ some '[' ∨ value.getLast? ≠ some ']'
  · have herr : (UnmarshalText parse trim bs value).2 ≠ none := by
      unfold UnmarshalText
      rw [if_pos hb]
      simp
    refine ⟨⟨fun _ => ?_, fun _ => herr⟩, fun h => absurd h herr, fun _ _ => herr⟩
    rcases hb with h | h | h
    · exact Or.inl h
    · exact Or.inr (Or.inl h)
    · exact Or.inr (Or.inr (Or.inl h))
  · obtain ⟨g1, g2⟩ := hgood hb
    refine ⟨⟨fun h => ?_, fun h => ?_⟩, g2, fun hp hi => ?_⟩
    · exact Or.inr (Or.inr (Or.inr (g1.1 h)))
    · rcases h with h | h | h | h
      · exact absurd (Or.inl h) hb
      · exact absurd (Or.inr (Or.inl h)) hb
      · exact absurd (Or.inr (Or.inr h)) hb
      · exact g1.2 h
    · apply g1.2
      rw [hi]
      exact ⟨[], by simp [splitComma], hp⟩

/-- Witness of C13: `[0,1ms,10ms]` parses to the three boundaries, and `[]`
is an error. -/
theorem UnmarshalText_error_iff_witness :
    UnmarshalText parseLiteral trimSpaces [] ['[', '0', ',', '1', 'm', 's', ',', '1', '0', 'm', 's', ']']
      = ([0, ms, 10 * ms], none) ∧
    (UnmarshalText parseLiteral trimSpaces [] ['[', ']']).2 ≠ none :=
  ⟨by decide,
    (UnmarshalText_error_iff parseLiteral trimSpaces [] ['[', ']']).2.2 (by decide) (by decide)⟩

/-! ## Bucket labels -/

theorem bucketAt_of_lt (bs : List Int) (i : Nat) (hi : i < bs.length) :
    bucketAt bs (i : Int) = .ok (bs.getD i 0) := by
  unfold bucketAt
  rw [if_neg (by omega)]
  have h1 : ((i : Int)).toNat = i := by omega
  rw [h1, List.getD_eq_getElem?_getD, List.getElem?_eq_getElem hi]
  rfl

/-- C14: for a boundary list `bs` and an index `0 <= i < len(bs)`, `Nth`
returns as lower label the text of `bs[i]`, and as upper label the text of
`bs[i+1]` when `i` is not the last index and `+Inf` when it is. -/
theorem Nth_labels (text : Int → String) (bs : List Int) (i : Nat) (hi : i < bs.length) :
    Nth text bs (i : Int)
      = .ok (text (bs.getD i 0),
          if i + 1 = bs.length then "+Inf" else text (bs.getD (i + 1) 0)) := by
  unfold Nth
  by_cases hl : i + 1 = bs.length
  · rw [if_pos (by omega), bucketAt_of_lt bs i hi, if_pos hl]
  · rw [if_neg (by omega), bucketAt_of_lt bs i hi]
    have h1 : ((i : Int) + 1) = ((i + 1 : Nat) : Int) := by push_cast; rfl
    rw [h1, bucketAt_of_lt bs (i + 1) (by omega), if_neg hl]

/-- Witness of C14: for the list parsed from `[0,1ms,10ms]`, `Nth(0)` is
`("0s", "1ms")` and `Nth(2)` is `("10ms", "+Inf")`. -/
theorem Nth_labels_witness :
    (UnmarshalText parseLiteral trimSpaces []
        ['[', '0', ',', '1', 'm', 's', ',', '1', '0', 'm', 's', ']']).1 = [0, ms, 10 * ms] ∧
    Nth durationString [0, ms, 10 * ms] ((0 : Nat) : Int) = .ok ("0s", "1ms") ∧
    Nth durationString [0, ms, 10 * ms] ((2 : Nat) : Int) = .ok ("10ms", "+Inf") :=
  ⟨by decide,
    (Nth_labels durationString [0, ms, 10 * ms] 0 (by decide)).trans (by decide),
    (Nth_labels durationString [0, ms, 10 * ms] 2 (by decide)).trans (by decide)⟩

/-! ## The report type -/

/-- C17, as stated, fails: the type `textual` is not exactly `text`, yet
`report` accepts it as the text report (only `typ[:4]` is compared), enters
the loop, and decodes and adds the two results of the input. -/
theorem report_prefix_counterexample :
    ['t', 'e', 'x', 't', 'u', 'a', 'l'] ≠ ['t', 'e', 'x', 't'] ∧
    reportSetup parseLiteral trimSpaces ['t', 'e', 'x', 't', 'u', 'a', 'l'] [] none none
      = .entered Kind.text ∧
    report countReporter (fun _ => 0) 10 parseLiteral trimSpaces
        ['t', 'e', 'x', 't', 'u', 'a', 'l'] [] none none 0
        (fun n => if n < 2 then Decoded.result ms else Decoded.eof) none
        [⟨false, false, false, none, none⟩, ⟨false, false, false, none, none⟩,
          ⟨false, false, false, none, none⟩]
      = .metricsRun (.returned none ⟨2, 2, [.added ms, .added ms, .reported 2]⟩) := by
  decide

/-- The set-up of `report` on a type whose first four bytes are none of
`text`, `json` and `hist`. -/
theorem reportSetup_unknown (parse : List Char → Option Int) (trim : List Char → List Char)
    (typ histStr : List Char) (decoderErr fileErr : Option Err)
    (htext : typ.take 4 ≠ ['t', 'e', 'x', 't']) (hjson : typ.take 4 ≠ ['j', 's', 'o', 'n'])
    (hhist : typ.take 4 ≠ ['h', 'i', 's', 't']) :
    ∃ e, reportSetup parse trim typ histStr decoderErr fileErr = .failed e ∧
      (typ.length < 4 → e = .invalidType typ) ∧
      (4 ≤ typ.length → decoderErr = none → fileErr = none →
        e = .plotDeprecated ∨ e = .unknownType typ) ∧
      (∀ x, e = .external x → decoderErr = some x ∨ fileErr = some x) := by
  unfold reportSetup
  by_cases hlen : typ.length < 4
  · rw [if_pos hlen]
    refine ⟨_, rfl, fun _ => rfl, ?_, ?_⟩
    · intro h
      omega
    · intro x hx
      cases hx
  · rw [if_neg hlen]
    cases hde : decoderErr with
    | some x =>
      refine ⟨_, rfl, fun h => absurd h hlen, ?_, ?_⟩
      · intro _ h
        cases h
      · intro y hy
        injection hy with hy
        left
        rw [hy]
    | none =>
      cases hfe : fileErr with
      | some x =>
        refine ⟨_, rfl, fun h => absurd h hlen, ?_, ?_⟩
        · intro _ _ h
          cases h
        · intro y hy
          injection hy with hy
          right
          rw [hy]
      | none =>
        simp only []
        by_cases hplot : typ.take 4 = ['p', 'l', 'o', 't']
        · rw [if_pos hplot]
          refine ⟨_, rfl, fun h => absurd h hlen, fun _ _ _ => Or.inl rfl, ?_⟩
          intro x hx
          cases hx
        · rw [if_neg hplot, if_neg htext, if_neg hjson, if_neg hhist]
          refine ⟨_, rfl, fun h => absurd h hlen, fun _ _ _ => Or.inr rfl, ?_⟩
          intro x hx
          cases hx

/-- The set-up of `report` on a type that is `hist` followed by a text that
`UnmarshalText` rejects, when no bucket list is given apart. -/
theorem reportSetup_bad_hist (parse : List Char → Option Int) (trim : List Char → List Char)
    (typ : List Char) (decoderErr fileErr : Option Err)
    (hhist : typ.take 4 = ['h', 'i', 's', 't']) (hlen : 4 < typ.length)
    (hbad : (UnmarshalText parse trim [] (typ.drop 4)).2 ≠ none) :
    ∃ e, reportSetup parse trim typ [] decoderErr fileErr = .failed e ∧
      (decoderErr = none → fileErr = none → ∃ b, e = .buckets b) ∧
      (∀ x, e = .external x → decoderErr = some x ∨ fileErr = some x) := by
  unfold reportSetup
  rw [if_neg (by omega)]
  cases hde : decoderErr with
  | some x =>
    refine ⟨_, rfl, ?_, ?_⟩
    · intro h
      cases h
    · intro y hy
      injection hy with hy
      left
      rw [hy]
  | none =>
    cases hfe : fileErr with
    | some x =>
      refine ⟨_, rfl, ?_, ?_⟩
      · intro _ h
        cases h
      · intro y hy
        injection hy with hy
        right
        rw [hy]
    | none =>
      have hdrop : typ.drop 4 ≠ [] := by
        intro h
        have := congrArg List.length h
        rw [List.length_drop] at this
        simp at this
        omega
      have hsel : (if True ∧ typ.length > 4 then typ.drop 4 else ([] : List Char))
          = typ.drop 4 := if_pos ⟨trivial, hlen⟩
      simp only []
      rw [hhist, hsel, if_neg (by decide), if_neg (by decide), if_neg (by decide), if_pos rfl,
        if_neg hdrop]
      cases hu : UnmarshalText parse trim [] (typ.drop 4) with
      | mk bs1 err =>
        rw [hu] at hbad
        cases err with
        | none => exact absurd rfl hbad
        | some b =>
          refine ⟨_, rfl, fun _ _ => ⟨b, rfl⟩, ?_⟩
          intro x hx
          cases hx

/-- C17, amended: for every `--type` string that the code does not
recognise, `report` returns an error before the loop starts, whatever the
input holds and whatever the schedule, so that no result is decoded or
added.  Not recognised are the strings whose first four bytes are none of
`text`, `json` and `hist` (every string shorter than four bytes included),
and the strings made of `hist` and a text that is not a bucket list, when
no bucket list is given apart.  The error is the configuration error
(`invalid report type`, the `plot` deprecation, `unknown report type`, or
the error of `UnmarshalText`) unless opening the input or the output failed
first, in which case it is that error. -/
theorem report_unknown_type {μ : Type} (M : Reporter μ) (m0 : Option Histogram → μ) (fuel : Nat)
    (parse : List Char → Option Int) (trim : List Char → List Char)
    (typ histStr : List Char) (decoderErr fileErr : Option Err)
    (every : Int) (dec : Nat → Decoded) (finalErr : Option Err) (evs : List Event)
    (hbad : (typ.take 4 ≠ ['t', 'e', 'x', 't'] ∧ typ.take 4 ≠ ['j', 's', 'o', 'n'] ∧
        typ.take 4 ≠ ['h', 'i', 's', 't']) ∨
      (typ.take 4 = ['h', 'i', 's', 't'] ∧ 4 < typ.length ∧ histStr = [] ∧
        (UnmarshalText parse trim [] (typ.drop 4)).2 ≠ none)) :
    ∃ e, report M m0 fuel parse trim typ histStr decoderErr fileErr every dec finalErr evs
        = .failed e ∧
      (typ.length < 4 → e = .invalidType typ) ∧
      (4 ≤ typ.length → decoderErr = none → fileErr = none →
        e = .plotDeprecated ∨ e = .unknownType typ ∨ ∃ b, e = .buckets b) ∧
      (∀ x, e = .external x → decoderErr = some x ∨ fileErr = some x) := by
  rcases hbad with ⟨htext, hjson, hhist⟩ | ⟨hhist, hlen, hstr, hu⟩
  · obtain ⟨e, he, h1, h2, h3⟩ :=
      reportSetup_unknown parse trim typ histStr decoderErr fileErr htext hjson hhist
    refine ⟨e, ?_, h1, ?_, h3⟩
    · unfold report
      rw [he]
    · intro a b c
      rcases h2 a b c with h | h
      · exact Or.inl h
      · exact Or.inr (Or.inl h)
  · subst hstr
    obtain ⟨e, he, h1, h2⟩ := reportSetup_bad_hist parse trim typ decoderErr fileErr hhist hlen hu
    refine ⟨e, ?_, fun h => by omega, ?_, h2⟩
    · unfold report
      rw [he]
    · intro _ b c
      exact Or.inr (Or.inr (h1 b c))

/-- Witness of C17 (amended): the type `yaml` is rejected as unknown. -/
theorem report_unknown_type_witness :
    ∃ e, report countReporter (fun _ => 0) 10 parseLiteral trimSpaces ['y', 'a', 'm', 'l'] []
        none none 0 (fun _ => Decoded.result ms) none [⟨false, false, false, none, none⟩]
        = .failed e ∧
      (['y', 'a', 'm', 'l'].length < 4 → e = .invalidType ['y', 'a', 'm', 'l']) ∧
      (4 ≤ ['y', 'a', 'm', 'l'].length → (none : Option Err) = none → (none : Option Err) = none →
        e = .plotDeprecated ∨ e = .unknownType ['y', 'a', 'm', 'l'] ∨ ∃ b, e = .buckets b) ∧
      (∀ x, e = .external x → (none : Option Err) = some x ∨ (none : Option Err) = some x) :=
  report_unknown_type countReporter (fun _ => 0) 10 parseLiteral trimSpaces ['y', 'a', 'm', 'l'] []
    none none 0 (fun _ => Decoded.result ms) none [⟨false, false, false, none, none⟩]
    (Or.inl ⟨by decide, by decide, by decide⟩)

/-! ## Ticks and the final report -/

/-- C11 fails on the code, through the defect of C2: the auto-binned
histogram report decodes a `5ms` and a `0.5ms` result and is left through
end-of-stream.  Without a tick the final report is that of the state the two
`Add` calls produce, closed: boundaries `[0, 1ms, 2ms, 4ms]`, counts
`[1, 0, 0, 1]`.  With one timer tick serviced between the two results, the
tick-time `Close` prunes the boundaries to `[4ms]`, the second `Add` grows
them through `int64` wrap-around, and the final report, after the same two
`Add` calls, is that of 46 boundaries starting `[4ms, 8ms, 16ms]`. -/
theorem tick_corrupts_final_report :
    addAll 100 ⟨[0, ms], [], 0, 2⟩ [5 * ms, 500000]
      = .ok ⟨[0, ms, 2 * ms, 4 * ms, 8 * ms], [1, 0, 0, 1, 0], 2, 2⟩ ∧
    Close ⟨[0, ms, 2 * ms, 4 * ms, 8 * ms], [1, 0, 0, 1, 0], 2, 2⟩
      = .ok ⟨[0, ms, 2 * ms, 4 * ms], [1, 0, 0, 1], 2, 2⟩ ∧
    runLoop (histReporter 100) 1
        (fun n => if n = 0 then Decoded.result (5 * ms)
          else if n = 1 then Decoded.result 500000 else Decoded.eof)
        none ⟨⟨[0, ms], [], 0, 2⟩, 0, []⟩
        [⟨false, false, false, none, none⟩, ⟨false, false, false, none, none⟩,
          ⟨false, false, false, none, none⟩]
      = .returned none ⟨⟨[0, ms, 2 * ms, 4 * ms], [1, 0, 0, 1], 2, 2⟩, 2,
          [.added (5 * ms), .added 500000, .closed,
            .reported ⟨[0, ms, 2 * ms, 4 * ms], [1, 0, 0, 1], 2, 2⟩]⟩ ∧
    (returnedState (runLoop (histReporter 100) 1
        (fun n => if n = 0 then Decoded.result (5 * ms)
          else if n = 1 then Decoded.result 500000 else Decoded.eof)
        none ⟨⟨[0, ms], [], 0, 2⟩, 0, []⟩
        [⟨false, false, false, none, none⟩, ⟨false, true, false, none, none⟩,
          ⟨false, false, false, none, none⟩, ⟨false, false, false, none, none⟩])).map (fun s => s.decoded) = some 2 ∧
    (returnedState (runLoop (histReporter 100) 1
        (fun n => if n = 0 then Decoded.result (5 * ms)
          else if n = 1 then Decoded.result 500000 else Decoded.eof)
        none ⟨⟨[0, ms], [], 0, 2⟩, 0, []⟩
        [⟨false, false, false, none, none⟩, ⟨false, true, false, none, none⟩,
          ⟨false, false, false, none, none⟩, ⟨false, false, false, none, none⟩])).map (fun s => addedLats s.log)
      = some [5 * ms, 500000] ∧
    (returnedState (runLoop (histReporter 100) 1
        (fun n => if n = 0 then Decoded.result (5 * ms)
          else if n = 1 then Decoded.result 500000 else Decoded.eof)
        none ⟨⟨[0, ms], [], 0, 2⟩, 0, []⟩
        [⟨false, false, false, none, none⟩, ⟨false, true, false, none, none⟩,
          ⟨false, false, false, none, none⟩, ⟨false, false, false, none, none⟩])).map (fun s => s.agg.Buckets.length) = some 46 ∧
    (returnedState (runLoop (histReporter 100) 1
        (fun n => if n = 0 then Decoded.result (5 * ms)
          else if n = 1 then Decoded.result 500000 else Decoded.eof)
        none ⟨⟨[0, ms], [], 0, 2⟩, 0, []⟩
        [⟨false, false, false, none, none⟩, ⟨false, true, false, none, none⟩,
          ⟨false, false, false, none, none⟩, ⟨false, false, false, none, none⟩])).map (fun s => s.agg.Buckets.take 3)
      = some [4 * ms, 8 * ms, 16 * ms] ∧
    (returnedState (runLoop (histReporter 100) 1
        (fun n => if n = 0 then Decoded.result (5 * ms)
          else if n = 1 then Decoded.result 500000 else Decoded.eof)
        none ⟨⟨[0, ms], [], 0, 2⟩, 0, []⟩
        [⟨false, false, false, none, none⟩, ⟨false, true, false, none, none⟩,
          ⟨false, false, false, none, none⟩, ⟨false, false, false, none, none⟩])).bind (fun s => s.log.getLast?)
      = (returnedState (runLoop (histReporter 100) 1
        (fun n => if n = 0 then Decoded.result (5 * ms)
          else if n = 1 then Decoded.result 500000 else Decoded.eof)
        none ⟨⟨[0, ms], [], 0, 2⟩, 0, []⟩
        [⟨false, false, false, none, none⟩, ⟨false, true, false, none, none⟩,
          ⟨false, false, false, none, none⟩, ⟨false, false, false, none, none⟩])).map
          (fun s => Action.reported s.agg) := by
  decide

/-! ## The boundary list `[0]` -/

theorem Add_zero_only (fuel : Nat) (cs : List Nat) (t g : Nat) (x : Int) (hg : 0 < g) :
    Add fuel ⟨[0], cs, t, g⟩ x = .error .outOfFuel := by
  have hs : getBucketScan [0] x (([0] : List Int).length - 1) 0 = none := rfl
  have hget : getBucket fuel ⟨[0], cs, t, g⟩ x = .error .outOfFuel := by
    rw [getBucket_of_scan_none fuel ⟨[0], cs, t, g⟩ x hs, if_pos hg]
    exact makeBucketLoop_zero_last x fuel ⟨[0], cs, t, g⟩ [] rfl
  unfold Add
  rw [hget]

/-- C16 fails on the code: on the boundary list `[0]` with growth factor 2,
`Add` of a `5ms` sample returns for no amount of fuel, because every
boundary `makeBucket` appends is `2 * 0 = 0`.  `report` reaches this state by
itself: the auto-binned histogram adds a `0.5ms` result, a timer tick closes
it to boundaries `[0]` and counts `[1]`, and the `Add` of the next result
never returns. -/
theorem Add_zero_boundary_hangs :
    (∀ fuel, Add fuel ⟨[0], [], 0, 2⟩ (5 * ms) = .error .outOfFuel) ∧
    loopStep (histReporter 10) 1
        (fun n => if n = 0 then Decoded.result 500000 else Decoded.result (5 * ms))
        ⟨⟨[0, ms], [], 0, 2⟩, 0, []⟩ ⟨false, false, false, none, none⟩
      = .next ⟨⟨[0, ms], [1, 0], 1, 2⟩, 1, [.added 500000]⟩ ∧
    loopStep (histReporter 10) 1
        (fun n => if n = 0 then Decoded.result 500000 else Decoded.result (5 * ms))
        ⟨⟨[0, ms], [1, 0], 1, 2⟩, 1, [.added 500000]⟩ ⟨false, true, false, none, none⟩
      = .next ⟨⟨[0], [1], 1, 2⟩, 1,
          [.added 500000, .cleared, .closed, .reported ⟨[0], [1], 1, 2⟩]⟩ ∧
    (∀ fuel, Add fuel ⟨[0], [1], 1, 2⟩ (5 * ms) = .error .outOfFuel) ∧
    (∀ fuel, loopStep (histReporter fuel) 1
        (fun n => if n = 0 then Decoded.result 500000 else Decoded.result (5 * ms))
        ⟨⟨[0], [1], 1, 2⟩, 1,
          [.added 500000, .cleared, .closed, .reported ⟨[0], [1], 1, 2⟩]⟩
        ⟨false, false, false, none, none⟩
      = .fault .outOfFuel) := by
  refine ⟨fun fuel => Add_zero_only fuel [] 0 2 (5 * ms) (by decide), by decide, by decide,
    fun fuel => Add_zero_only fuel [1] 1 2 (5 * ms) (by decide), ?_⟩
  intro fuel
  have hsel : selectCase 1 ⟨false, false, false, none, none⟩ = Case.default := by decide
  unfold loopStep
  rw [hsel]
  simp only [defaultBranch, histReporter]
  rw [if_neg (by decide)]
  simp only [Add_zero_only fuel [1] 1 2 (5 * ms) (by decide)]

end Vegeta
